import Mathlib

/-!
Shallow embedding of the GreatestBGHits backgammon-quiz core
(board model and position codec, transcript parser, engine driver,
quiz store, crawl pipeline), together with theorems settling the
spec claims about it.

Conventions:
* JS arrays of 26 integer slots are `List ℤ` of length 26.
* JS numbers used as counters are `ℤ` or `ℕ`; equities/thresholds are `ℚ`.
* JS `undefined`/absent fields are `Option _`.
* Fallible code returns `Except String _` (a rejected promise is `.error`).
-/

namespace BGHits

/-- The two players, as the JS string keys 'player1'/'player2'. -/
inductive Player
  | player1
  | player2
  deriving DecidableEq, Repr

/-- The opposite player (`player === 'player1' ? 'player2' : 'player1'`). -/
def Player.other : Player → Player
  | .player1 => .player2
  | .player2 => .player1

/-- One part of a move: `{ from, to, hit }` with arbitrary (possibly invalid)
integer indices, as produced by the parser or handed to `applyMoveParts`. -/
structure MovePart where
  src : ℤ
  dst : ℤ
  hit : Bool
  deriving DecidableEq, Repr

/-- Dice as parsed (`{die1, die2, isDouble, total}`). -/
structure Dice where
  die1 : ℤ
  die2 : ℤ
  isDouble : Bool
  total : ℤ
  deriving DecidableEq, Repr

/-- Board state: two 26-slot arrays (0 = borne off, 1..24 = points,
25 = bar), turn, cube value and owner, score, match length, dice.
Mirrors the `BackgammonBoard` constructor fields. -/
structure BackgammonBoard where
  points1 : List ℤ
  points2 : List ℤ
  turn : Player
  cube : ℤ
  cubeOwner : Option Player
  score1 : ℤ
  score2 : ℤ
  matchLength : Option ℤ
  dice : Option (ℤ × ℤ)
  deriving DecidableEq, Repr

namespace BackgammonBoard

/-- Read slot `i` of a points array (JS `arr[i]`, only used in-range). -/
def slot (arr : List ℤ) (i : ℤ) : ℤ := arr.getD i.toNat 0

/-- Write slot `i` of a points array. -/
def setSlot (arr : List ℤ) (i : ℤ) (v : ℤ) : List ℤ := arr.set i.toNat v

/-- The points array of the given player. -/
def pointsOf (b : BackgammonBoard) : Player → List ℤ
  | .player1 => b.points1
  | .player2 => b.points2

/-- Replace the points array of the given player. -/
def withPoints (b : BackgammonBoard) : Player → List ℤ → BackgammonBoard
  | .player1, arr => { b with points1 := arr }
  | .player2, arr => { b with points2 := arr }

/-- `#moveOne(player, from, to, hit)`: move a single checker,
guarding source range and emptiness, handling a hit, and guarding the
destination range before incrementing it. -/
def moveOne (b : BackgammonBoard) (player : Player) (src dst : ℤ)
    (hit : Bool) : BackgammonBoard :=
  let mine := b.pointsOf player
  let opp := b.pointsOf player.other
  -- if (from < 0 || from > 25) return;
  if src < 0 ∨ src > 25 then b
  -- if (mine[from] <= 0) return;
  else if slot mine src ≤ 0 then b
  else
    let mine := setSlot mine src (slot mine src - 1)
    -- if (hit && to >= 1 && to <= 24) { if (opp[to] > 0) { ... } }
    let opp :=
      if hit ∧ 1 ≤ dst ∧ dst ≤ 24 then
        if slot opp dst > 0 then
          setSlot (setSlot opp dst (slot opp dst - 1)) 25 (slot opp 25 + 1)
        else opp
      else opp
    let b := (b.withPoints player mine).withPoints player.other opp
    -- if (to < 0 || to > 25) return;
    if dst < 0 ∨ dst > 25 then b
    else b.withPoints player (setSlot (b.pointsOf player) dst
      (slot (b.pointsOf player) dst + 1))

/-- `applyMoveParts(player, parts)`: apply each part in order. -/
def applyMoveParts (b : BackgammonBoard) (player : Player)
    (parts : List MovePart) : BackgammonBoard :=
  parts.foldl (fun acc p => acc.moveOne player p.src p.dst p.hit) b

/-- `BackgammonBoard.starting(turn)`: the standard starting position. -/
def starting (turn : Player) : BackgammonBoard :=
  let side : List ℤ :=
    [0, 0, 0, 0, 0, 0, 5, 0, 3, 0, 0, 0, 0, 5, 0, 0, 0, 0, 0, 0, 0, 0, 0, 0, 2, 0]
  { points1 := side, points2 := side, turn := turn, cube := 1,
    cubeOwner := none, score1 := 0, score2 := 0, matchLength := none,
    dice := none }

end BackgammonBoard

end BGHits

namespace BGHits

open BackgammonBoard

/-- Sum of all 26 slots of a points array. -/
def slotSum (arr : List ℤ) : ℤ := arr.sum

/-- All slot counts of a points array are non-negative. -/
def allNonneg (arr : List ℤ) : Prop := ∀ x ∈ arr, 0 ≤ x

instance (arr : List ℤ) : Decidable (allNonneg arr) := by
  unfold allNonneg; infer_instance

lemma sum_set (l : List ℤ) (n : ℕ) (v : ℤ) (h : n < l.length) :
    (l.set n v).sum = l.sum - l.getD n 0 + v := by
  induction l generalizing n with
  | nil => simp at h
  | cons a t ih =>
    cases n with
    | zero => simp [List.getD_cons_zero]; ring
    | succ m =>
      simp only [List.set, List.sum_cons, List.getD_cons_succ]
      rw [ih m (by simpa using h)]
      ring

lemma getD_set_ne (l : List ℤ) (n m : ℕ) (v : ℤ) (h : n ≠ m) :
    (l.set n v).getD m 0 = l.getD m 0 := by
  simp [List.getD_eq_getElem?_getD, List.getElem?_set_ne h]

lemma getD_set_self (l : List ℤ) (n : ℕ) (v : ℤ) (h : n < l.length) :
    (l.set n v).getD n 0 = v := by
  simp [List.getD_eq_getElem?_getD, List.getElem?_set_self h]

lemma slot_nonneg {l : List ℤ} (h : allNonneg l) (i : ℤ) : 0 ≤ slot l i := by
  unfold slot
  rw [List.getD_eq_getElem?_getD]
  cases hx : l[i.toNat]? with
  | none => simp
  | some x => simpa using h x (List.getElem?_mem hx)

lemma allNonneg_set {l : List ℤ} {v : ℤ} (h : allNonneg l) (hv : 0 ≤ v) (n : ℕ) :
    allNonneg (l.set n v) := by
  intro x hx
  rcases List.mem_or_eq_of_mem_set hx with hmem | rfl
  · exact h x hmem
  · exact hv

@[simp] lemma pointsOf_withPoints_self (b : BackgammonBoard) (p : Player) (arr : List ℤ) :
    ((b.withPoints p arr).pointsOf p) = arr := by
  cases p <;> rfl

lemma pointsOf_withPoints_other (b : BackgammonBoard) (p : Player) (arr : List ℤ) :
    ((b.withPoints p arr).pointsOf p.other) = b.pointsOf p.other := by
  cases p <;> rfl

/-- Invariant carried through `#moveOne`: both arrays keep length 26,
slot sum 15 and non-negativity (the sum needs every destination in 0..25). -/
def boardInv (b : BackgammonBoard) : Prop :=
  b.points1.length = 26 ∧ b.points2.length = 26 ∧
  slotSum b.points1 = 15 ∧ slotSum b.points2 = 15

/-- Slot sum is preserved by decrementing the source and incrementing the
destination (both in range). -/
lemma sum_after_move (p : List ℤ) (s d : ℕ) (hs : s < p.length) (hd : d < p.length) :
    ((p.set s (p.getD s 0 - 1)).set d
      ((p.set s (p.getD s 0 - 1)).getD d 0 + 1)).sum = p.sum := by
  rw [sum_set _ _ _ (by simpa using hd), sum_set _ _ _ hs]
  omega

/-- Slot sum is preserved by sending one opponent checker from `d` to the bar. -/
lemma sum_after_hit (p : List ℤ) (d : ℕ) (hd : d < p.length) (h25 : 25 < p.length)
    (hne : d ≠ 25) :
    ((p.set d (p.getD d 0 - 1)).set 25 (p.getD 25 0 + 1)).sum = p.sum := by
  rw [sum_set _ _ _ (by simpa using h25), getD_set_ne _ _ _ _ hne,
    sum_set _ _ _ hd]
  omega

lemma moveOne_inv {b : BackgammonBoard} (player : Player) (src dst : ℤ) (hit : Bool)
    (hinv : boardInv b) (hdst : 0 ≤ dst ∧ dst ≤ 25) :
    boardInv (b.moveOne player src dst hit) := by
  obtain ⟨hl1, hl2, hs1, hs2⟩ := hinv
  obtain ⟨hd0, hd25⟩ := hdst
  cases player <;>
  · dsimp only [moveOne, Player.other, pointsOf, withPoints, setSlot, slot] at *
    try simp only [show (25 : ℤ).toNat = 25 from rfl]
    split_ifs
    all_goals first
      | exact ⟨hl1, hl2, hs1, hs2⟩
      | (exfalso; omega)
      | (refine ⟨by simp [List.length_set, hl1, hl2], by simp [List.length_set, hl1, hl2],
            ?_, ?_⟩ <;>
          simp only [slotSum] at * <;>
          first
          | assumption
          | (rw [sum_after_move _ _ _ (by omega) (by omega)]; assumption)
          | (rw [sum_after_hit _ _ (by omega) (by omega) (by omega)]; assumption))

lemma getD_nonneg {l : List ℤ} (h : allNonneg l) (n : ℕ) : 0 ≤ l.getD n 0 := by
  rw [List.getD_eq_getElem?_getD]
  cases hx : l[n]? with
  | none => simp
  | some x => simpa using h x (List.getElem?_mem hx)

lemma allNonneg_dec {p : List ℤ} (s : ℕ) (h : allNonneg p) (hs : 0 ≤ p.getD s 0 - 1) :
    allNonneg (p.set s (p.getD s 0 - 1)) :=
  allNonneg_set h hs s

lemma allNonneg_move {p : List ℤ} (s d : ℕ) (h : allNonneg p)
    (hs : 0 ≤ p.getD s 0 - 1) :
    allNonneg ((p.set s (p.getD s 0 - 1)).set d
      ((p.set s (p.getD s 0 - 1)).getD d 0 + 1)) := by
  have h1 := allNonneg_set h hs s
  exact allNonneg_set h1 (by have := getD_nonneg h1 d; omega) d

lemma allNonneg_hit {p : List ℤ} (d : ℕ) (h : allNonneg p) (hd : 0 < p.getD d 0) :
    allNonneg ((p.set d (p.getD d 0 - 1)).set 25 (p.getD 25 0 + 1)) := by
  have h1 : allNonneg (p.set d (p.getD d 0 - 1)) := allNonneg_set h (by omega) d
  exact allNonneg_set h1 (by have := getD_nonneg h 25; omega) 25

lemma moveOne_nonneg {b : BackgammonBoard} (player : Player) (src dst : ℤ) (hit : Bool)
    (h1 : allNonneg b.points1) (h2 : allNonneg b.points2) :
    allNonneg ((b.moveOne player src dst hit).points1) ∧
    allNonneg ((b.moveOne player src dst hit).points2) := by
  cases player <;>
  · dsimp only [moveOne, Player.other, pointsOf, withPoints, setSlot, slot]
    try simp only [show (25 : ℤ).toNat = 25 from rfl]
    split_ifs
    all_goals
      constructor <;>
        first
        | assumption
        | (apply allNonneg_move <;> first | assumption | omega)
        | (apply allNonneg_dec <;> first | assumption | omega)
        | (apply allNonneg_hit <;> first | assumption | omega)

lemma applyMoveParts_cons (b : BackgammonBoard) (player : Player) (p : MovePart)
    (ps : List MovePart) :
    b.applyMoveParts player (p :: ps) =
      (b.moveOne player p.src p.dst p.hit).applyMoveParts player ps := rfl

lemma applyMoveParts_inv (b : BackgammonBoard) (player : Player)
    (parts : List MovePart) (hinv : boardInv b)
    (hdst : ∀ p ∈ parts, 0 ≤ p.dst ∧ p.dst ≤ 25) :
    boardInv (b.applyMoveParts player parts) := by
  induction parts generalizing b with
  | nil => exact hinv
  | cons p ps ih =>
    rw [applyMoveParts_cons]
    exact ih _ (moveOne_inv player p.src p.dst p.hit hinv (hdst p (List.mem_cons_self p ps)))
      (fun q hq => hdst q (List.mem_cons_of_mem p hq))

lemma applyMoveParts_nonneg (b : BackgammonBoard) (player : Player)
    (parts : List MovePart) (h1 : allNonneg b.points1) (h2 : allNonneg b.points2) :
    allNonneg ((b.applyMoveParts player parts).points1) ∧
    allNonneg ((b.applyMoveParts player parts).points2) := by
  induction parts generalizing b with
  | nil => exact ⟨h1, h2⟩
  | cons p ps ih =>
    rw [applyMoveParts_cons]
    obtain ⟨g1, g2⟩ := moveOne_nonneg player p.src p.dst p.hit h1 h2
    exact ih _ g1 g2

/-- Claim C2, counterexample: the claim that `applyMoveParts` preserves the
slot sum 15 for every list of parts (out-of-range indices silently skipping
the whole part) is false.  On the standard starting board (both sums 15),
the single part `{from: 6, to: 26, hit: false}` has an out-of-range
destination: `#moveOne` decrements the source slot and only then hits the
destination range guard, so player1's sum drops to 14. -/
theorem C2_counterexample :
    slotSum ((BackgammonBoard.starting .player1).points1) = 15 ∧
    slotSum ((BackgammonBoard.starting .player1).points2) = 15 ∧
    slotSum (((BackgammonBoard.starting .player1).applyMoveParts .player1
      [⟨6, 26, false⟩]).points1) = 14 := by
  decide

/-- Claim C2, amended: for every board whose two 26-slot arrays each sum
to 15 and every list of move parts whose destination indices all lie in
0..25 (source indices arbitrary: an out-of-range or empty source silently
skips that part), after `applyMoveParts(player, parts)` each player's 26
slots still sum to 15.  (A part with an in-range, non-empty source but an
out-of-range destination would instead lose a checker, see the
counterexample.) -/
theorem C2_applyMoveParts_sum (b : BackgammonBoard) (player : Player)
    (parts : List MovePart)
    (hl1 : b.points1.length = 26) (hl2 : b.points2.length = 26)
    (hs1 : slotSum b.points1 = 15) (hs2 : slotSum b.points2 = 15)
    (hdst : ∀ p ∈ parts, 0 ≤ p.dst ∧ p.dst ≤ 25) :
    slotSum ((b.applyMoveParts player parts).points1) = 15 ∧
    slotSum ((b.applyMoveParts player parts).points2) = 15 := by
  have h := applyMoveParts_inv b player parts ⟨hl1, hl2, hs1, hs2⟩ hdst
  exact ⟨h.2.2.1, h.2.2.2⟩

/-- Witness for `C2_applyMoveParts_sum` at the starting board with a part
list containing an out-of-range source (skipped), an empty source (skipped),
a hit and a bear-off. -/
theorem C2_applyMoveParts_sum_witness :
    slotSum (((BackgammonBoard.starting .player1).applyMoveParts .player1
      [⟨30, 5, false⟩, ⟨5, 3, true⟩, ⟨24, 20, true⟩, ⟨6, 0, false⟩]).points1) = 15 ∧
    slotSum (((BackgammonBoard.starting .player1).applyMoveParts .player1
      [⟨30, 5, false⟩, ⟨5, 3, true⟩, ⟨24, 20, true⟩, ⟨6, 0, false⟩]).points2) = 15 :=
  C2_applyMoveParts_sum (BackgammonBoard.starting .player1) .player1
    [⟨30, 5, false⟩, ⟨5, 3, true⟩, ⟨24, 20, true⟩, ⟨6, 0, false⟩]
    (by decide) (by decide) (by decide) (by decide) (by decide)

/-- Claim C10: for every board whose slot counts are all non-negative and
for every list of move parts (with arbitrary, even invalid, from/to indices
and hit flags), `applyMoveParts` never drives any slot count below zero: a
source slot is decremented only when it is positive, and a hit decrements
the opponent's destination slot only when that slot is positive. -/
theorem C10_applyMoveParts_nonneg (b : BackgammonBoard) (player : Player)
    (parts : List MovePart)
    (h1 : allNonneg b.points1) (h2 : allNonneg b.points2) :
    allNonneg ((b.applyMoveParts player parts).points1) ∧
    allNonneg ((b.applyMoveParts player parts).points2) :=
  applyMoveParts_nonneg b player parts h1 h2

/-- Witness for `C10_applyMoveParts_nonneg` at the starting board with a
part list of invalid indices, empty sources and spurious hit flags. -/
theorem C10_applyMoveParts_nonneg_witness :
    allNonneg (((BackgammonBoard.starting .player2).applyMoveParts .player2
      [⟨6, -3, true⟩, ⟨26, 4, false⟩, ⟨1, 7, true⟩, ⟨25, 30, true⟩,
        ⟨24, 24, true⟩]).points1) ∧
    allNonneg (((BackgammonBoard.starting .player2).applyMoveParts .player2
      [⟨6, -3, true⟩, ⟨26, 4, false⟩, ⟨1, 7, true⟩, ⟨25, 30, true⟩,
        ⟨24, 24, true⟩]).points2) :=
  C10_applyMoveParts_nonneg (BackgammonBoard.starting .player2) .player2
    [⟨6, -3, true⟩, ⟨26, 4, false⟩, ⟨1, 7, true⟩, ⟨25, 30, true⟩, ⟨24, 24, true⟩]
    (by decide) (by decide)

/-!
Transcript parser (`backgammon-parser.js`): half-ply recognition,
dice and move-token parsing, and ply-row splitting.
-/

/-- Numeric value of a decimal digit character. -/
def digitVal (c : Char) : ℤ := ((c.toNat - '0'.toNat : ℕ) : ℤ)

/-- Value of a decimal digit string (JS `parseInt` on an all-digit string). -/
def digitsToInt (ds : List Char) : ℤ := ds.foldl (fun acc c => acc * 10 + digitVal c) 0

/-- Does `cs` start with the literal `pat`? -/
def listStartsWith : List Char → List Char → Bool
  | _, [] => true
  | [], _ :: _ => false
  | c :: cs, p :: ps => c == p && listStartsWith cs ps

/-- Strip the literal `pat` off the front of `cs`, if present. -/
def stripLit : List Char → List Char → Option (List Char)
  | cs, [] => some cs
  | [], _ :: _ => none
  | c :: cs, p :: ps => if c == p then stripLit cs ps else none

/-- Does `cs` contain the literal `pat` anywhere (JS `String.includes`)? -/
def listContains : List Char → List Char → Bool
  | [], pat => listStartsWith [] pat
  | c :: t, pat => listStartsWith (c :: t) pat || listContains t pat

/-- Try the regex `Doubles\s*=>\s*(\d+)` anchored at the start of `cs`. -/
def doublesAt (cs : List Char) : Option ℤ :=
  (stripLit cs "Doubles".toList).bind fun r1 =>
    let r2 := r1.dropWhile (·.isWhitespace)
    (stripLit r2 "=>".toList).bind fun r3 =>
      let r4 := r3.dropWhile (·.isWhitespace)
      let digs := r4.takeWhile (·.isDigit)
      if digs.isEmpty then none else some (digitsToInt digs)

/-- Leftmost match of `Doubles\s*=>\s*(\d+)`, returning the captured value. -/
def findDoubles : List Char → Option ℤ
  | [] => none
  | c :: t =>
    match doublesAt (c :: t) with
    | some v => some v
    | none => findDoubles t

/-- Try the regex `Wins\s+(\d+)\s+points?` anchored at the start of `cs`. -/
def winsAt (cs : List Char) : Option ℤ :=
  (stripLit cs "Wins".toList).bind fun r1 =>
    match r1 with
    | c :: _ =>
      if c.isWhitespace then
        let r2 := r1.dropWhile (·.isWhitespace)
        let digs := r2.takeWhile (·.isDigit)
        if digs.isEmpty then none
        else
          let r3 := r2.drop digs.length
          match r3 with
          | d :: _ =>
            if d.isWhitespace then
              let r4 := r3.dropWhile (·.isWhitespace)
              ((stripLit r4 "point".toList).map fun _ => digitsToInt digs)
            else none
          | [] => none
      else none
    | [] => none

/-- Leftmost match of `Wins\s+(\d+)\s+points?`, returning the captured value. -/
def findWins : List Char → Option ℤ
  | [] => none
  | c :: t =>
    match winsAt (c :: t) with
    | some v => some v
    | none => findWins t

/-- The anchored regex `^(\d{1,2}):\s*(.*)$` (`rollMovePattern`): returns the
dice digits and the remainder after the colon and any whitespace. -/
def matchRollMove (cs : List Char) : Option (List Char × List Char) :=
  match cs with
  | c1 :: c2 :: c3 :: rest =>
    if c1.isDigit && c2.isDigit && c3 == ':' then
      some ([c1, c2], rest.dropWhile (·.isWhitespace))
    else if c1.isDigit && c2 == ':' then
      some ([c1], (c3 :: rest).dropWhile (·.isWhitespace))
    else none
  | [c1, c2] => if c1.isDigit && c2 == ':' then some ([c1], []) else none
  | _ => none

/-- The anchored regex `^(\d+)\)\s*(.*)$` (`movePattern`). -/
def matchMovePattern (cs : List Char) : Option (List Char × List Char) :=
  let digs := cs.takeWhile (·.isDigit)
  if digs.isEmpty then none
  else
    match cs.drop digs.length with
    | ')' :: rest => some (digs, rest.dropWhile (·.isWhitespace))
    | _ => none

/-- JS `String.trim`: drop whitespace from both ends. -/
def trimList (cs : List Char) : List Char :=
  ((cs.dropWhile (·.isWhitespace)).reverse.dropWhile (·.isWhitespace)).reverse

/-- JS `split` on a single-character separator class: cut at every
character satisfying `p` (adjacent separators produce empty segments). -/
def splitBy (p : Char → Bool) : List Char → List (List Char)
  | [] => [[]]
  | c :: t =>
    if p c then [] :: splitBy p t
    else
      match splitBy p t with
      | s :: ss => (c :: s) :: ss
      | [] => [[c]]

/-- Split on runs of two or more whitespace characters (JS
`split(/\s{2,}/)`): a maximal whitespace run of length at least 2 is a
separator; single whitespace characters stay inside a column.  `acc` is
the current column and `pend` the whitespace run seen so far, both in
reverse. -/
def splitWsGo : List Char → List Char → List Char → List (List Char)
  | acc, pend, [] =>
    if pend.length ≥ 2 then [acc.reverse, []] else [(pend ++ acc).reverse]
  | acc, pend, c :: rest =>
    if c.isWhitespace then splitWsGo acc (c :: pend) rest
    else if pend.length ≥ 2 then acc.reverse :: splitWsGo [c] [] rest
    else splitWsGo (c :: (pend ++ acc)) [] rest

/-- JS `content.split(/\s{2,}/)`. -/
def splitWsRun (cs : List Char) : List (List Char) := splitWsGo [] [] cs

/-- `parseDice`: a two-character dice string becomes
`{die1, die2, isDouble, total}`; anything else is null. -/
def parseDice (dice : List Char) : Option Dice :=
  match dice with
  | [c1, c2] =>
    some { die1 := digitVal c1, die2 := digitVal c2,
           isDouble := digitVal c1 == digitVal c2,
           total := digitVal c1 + digitVal c2 }
  | _ => none

/-- Lowercase a character list (JS `toLowerCase` on ASCII). -/
def lowerList (cs : List Char) : List Char := cs.map Char.toLower

/-- Parse the source side of a move token: `bar` (case-insensitively)
maps to 25, otherwise one or more digits. -/
def parseFromSeg (cs : List Char) : Option ℤ :=
  if lowerList cs = "bar".toList then some 25
  else if !cs.isEmpty && cs.all (·.isDigit) then some (digitsToInt cs)
  else none

/-- Parse the destination side of a move token: `off` (case-insensitively)
maps to 0, otherwise one or more digits. -/
def parseToSeg (cs : List Char) : Option ℤ :=
  if lowerList cs = "off".toList then some 0
  else if !cs.isEmpty && cs.all (·.isDigit) then some (digitsToInt cs)
  else none

/-- Split on `/` into exactly two segments (the regex sides cannot
contain a slash). -/
def splitSlash (cs : List Char) : Option (List Char × List Char) :=
  match splitBy (· == '/') cs with
  | [a, b] => some (a, b)
  | _ => none

/-- One token against `^(bar|\d+)\/(off|\d+)(\*)?$` (case-insensitive),
converting `bar` to 25 and `off` to 0, with `*` as the hit flag. -/
def parseMoveToken (cs : List Char) : Option MovePart :=
  if cs.isEmpty then none
  else
    let hit := cs.getLast? == some '*'
    let base := if hit then cs.dropLast else cs
    match splitSlash base with
    | some (s1, s2) =>
      (parseFromSeg s1).bind fun f =>
        (parseToSeg s2).map fun t => MovePart.mk f t hit
    | none => none

/-- `parseMoves`: split the token text on whitespace and keep every token
the move regex accepts; unknown tokens are silently dropped. -/
def parseMoves (movesText : String) : List MovePart :=
  (splitBy (·.isWhitespace) movesText.toList).foldl
    (fun acc part =>
      match parseMoveToken (trimList part) with
      | some mp => acc ++ [mp]
      | none => acc) []

/-- A parsed half-ply (`parsePlayerMove`'s tagged result). -/
inductive HalfPly
  | no_move
  | double (value : ℤ)
  | take
  | drop
  | win (points : ℤ)
  | move (dice : Option Dice) (moves : List MovePart)
  | unknown (text : String)
  deriving DecidableEq, Repr

/-- `parsePlayerMove`: recognize one half-ply column. -/
def parsePlayerMove (moveText : String) : HalfPly :=
  let t := trimList moveText.toList
  if t.isEmpty then .no_move
  else if listContains t "Doubles".toList then .double ((findDoubles t).getD 2)
  else if listContains t "Takes".toList then .take
  else if listContains t "Drops".toList then .drop
  else if listContains t "Wins".toList then .win ((findWins t).getD 1)
  else
    match matchRollMove t with
    | some (dice, movesTail) =>
      let movesStr := trimList movesTail
      .move (parseDice dice)
        (if movesStr.isEmpty then [] else parseMoves (String.mk movesStr))
    | none =>
      if listContains t ":".toList then .move none [] else .unknown (String.mk t)

/-- A parsed ply row: move number plus the two half-plies. -/
structure MoveLine where
  moveNumber : ℤ
  player1 : HalfPly
  player2 : HalfPly
  deriving DecidableEq, Repr

/-- `parseMoveLine`: match the row against `^(\d+)\)\s*(.*)$`, split the
content on runs of two or more spaces into the two half-ply columns, and
parse each column. -/
def parseMoveLine (line : String) : Option MoveLine :=
  match matchMovePattern line.toList with
  | none => none
  | some (numDigits, content) =>
    let parts := splitWsRun content
    some { moveNumber := digitsToInt numDigits,
           player1 := parsePlayerMove (String.mk (parts.getD 0 [])),
           player2 := parsePlayerMove (String.mk (parts.getD 1 [])) }

/-- Claim C5, counterexample: a half-ply column containing only `61:`
(dice with no move tokens) does not parse to `no_move`; `parsePlayerMove`
matches the roll pattern and yields a move with dice (6,1) and an empty
part list (a forced pass). -/
theorem C5_counterexample :
    parsePlayerMove "61:" ≠ HalfPly.no_move ∧
    parsePlayerMove "61:" = HalfPly.move (some ⟨6, 1, false, 7⟩) [] := by
  decide

/-- Claim C5, amended: parsing the ply row whose two half-ply columns are
`61:` and `62: bar/19* 24/18` yields a player-1 half-ply
`move{dice:(6,1), parts:[]}` (a forced pass, not `no_move`) and a player-2
half-ply `move{dice:(6,2), parts:[{from:25,to:19,hit:true},
{from:24,to:18,hit:false}]}`; the alternative token `25/19*` yields the
same player-2 parts.  (The row is trimmed first, as `parseMatch` trims
every line.) -/
theorem C5_parseMoveLine :
    parseMoveLine (String.mk (trimList
        "  8) 61:                               62: bar/19* 24/18".toList))
      = some ⟨8, HalfPly.move (some ⟨6, 1, false, 7⟩) [],
          HalfPly.move (some ⟨6, 2, false, 8⟩)
            [⟨25, 19, true⟩, ⟨24, 18, false⟩]⟩ ∧
    parsePlayerMove "62: 25/19* 24/18"
      = HalfPly.move (some ⟨6, 2, false, 8⟩)
          [⟨25, 19, true⟩, ⟨24, 18, false⟩] := by
  decide

/-!
Canonical move equivalence (`gameCore.js`): `convertTokenForGnuBg`,
`expandCountsToken`, `getExpandedCliTokens`, `moveToTokenMultiset`.
Move-text tokens are `List Char`.
-/

/-- Digit-string value as a natural number. -/
def digitsToNat (ds : List Char) : ℕ :=
  ds.foldl (fun acc c => acc * 10 + (c.toNat - '0'.toNat)) 0

/-- `convertTokenForGnuBg`: strip a trailing `*`, rewrite `25/` to `bar/`
and `/0` to `/off`, re-append the `*`.  A token without a slash is
returned unchanged (plus the `*`); extra slash segments beyond the first
two are dropped, as JS array destructuring does. -/
def convertTokenForGnuBg (cs : List Char) : List Char :=
  if cs.isEmpty then cs
  else
    let hasHit := cs.getLast? == some '*'
    let hit : List Char := if hasHit then ['*'] else []
    let tok := if hasHit then cs.dropLast else cs
    if !(tok.contains '/') then tok ++ hit
    else
      let segs := splitBy (· == '/') tok
      let fromPt := segs.getD 0 []
      let toPt := segs.getD 1 []
      let fromPt := if fromPt = "25".toList then "bar".toList else fromPt
      let toPt := if toPt = "0".toList then "off".toList else toPt
      fromPt ++ '/' :: (toPt ++ hit)

/-- The regex `^([^()\s]+)\((\d+)\)$`: base token and repeat count. -/
def matchCountsShorthand (cs : List Char) : Option (List Char × ℕ) :=
  let base := cs.takeWhile (fun c => !(c == '(' || c == ')' || c.isWhitespace))
  if base.isEmpty then none
  else
    match cs.drop base.length with
    | '(' :: rest =>
      let digs := rest.takeWhile (·.isDigit)
      if digs.isEmpty then none
      else
        match rest.drop digs.length with
        | [')'] => some (base, digitsToNat digs)
        | _ => none
    | _ => none

/-- `expandCountsToken`: `X/Y(n)` becomes n copies of `X/Y`, the `*`
suffix surviving only on the first copy; other tokens stay singletons and
the empty token vanishes. -/
def expandCountsToken (cs : List Char) : List (List Char) :=
  if cs.isEmpty then []
  else
    match matchCountsShorthand cs with
    | none => [cs]
    | some (base, count) =>
      let hasAst := base.getLast? == some '*'
      let baseNoAst := if hasAst then base.dropLast else base
      (List.range count).map (fun i => if i = 0 && hasAst then base else baseNoAst)

/-- The token loop of `getExpandedCliTokens`: expand each raw token and
convert every expanded part to CLI notation, in order. -/
def expandTokens (toks : List (List Char)) : List (List Char) :=
  toks.foldl (fun acc t => acc ++ (expandCountsToken t).map convertTokenForGnuBg) []

/-- `getExpandedCliTokens`: trim, split on whitespace, expand shorthand
counts and normalize `bar`/`off`. -/
def getExpandedCliTokens (moveText : String) : List (List Char) :=
  let t := trimList moveText.toList
  if t.isEmpty then [] else expandTokens (splitBy (·.isWhitespace) t)

/-- JS `tokens.sort()` on the expanded tokens: lexicographic comparison
of the character sequences. -/
def sortTokens (l : List (List Char)) : List (List Char) :=
  l.insertionSort (· ≤ ·)

/-- `moveToTokenMultiset`: the canonical, order-insensitive form of a
move text. -/
def moveToTokenMultiset (moveText : String) : List (List Char) :=
  if moveText.isEmpty then [] else sortTokens (getExpandedCliTokens moveText)

lemma expandTokens_eq_flatMap (toks : List (List Char)) :
    expandTokens toks =
      toks.flatMap (fun t => (expandCountsToken t).map convertTokenForGnuBg) := by
  suffices h : ∀ acc,
      toks.foldl (fun acc t => acc ++ (expandCountsToken t).map convertTokenForGnuBg) acc =
        acc ++ toks.flatMap (fun t => (expandCountsToken t).map convertTokenForGnuBg) by
    simpa using h []
  induction toks with
  | nil => simp
  | cons t ts ih => intro acc; simp [List.flatMap_cons, ih, List.append_assoc]

lemma moveToTokenMultiset_eq (a : String) :
    moveToTokenMultiset a = sortTokens (getExpandedCliTokens a) := by
  unfold moveToTokenMultiset
  split_ifs with h
  · rw [(String.isEmpty_iff a).mp h]
    rfl
  · rfl

/-- Claim C8: two move texts are canonically equivalent iff their
expanded, normalized token lists are permutations of each other (the same
multiset); canonicalization is therefore invariant under reordering the
raw tokens; and `8/5(2) 6/3*(2)` canonicalizes to the multiset
`{8/5, 8/5, 6/3*, 6/3}`. -/
theorem C8_canonical_equivalence :
    (∀ a b : String,
        moveToTokenMultiset a = moveToTokenMultiset b ↔
          (getExpandedCliTokens a).Perm (getExpandedCliTokens b)) ∧
    (∀ toks toks' : List (List Char), toks.Perm toks' →
        sortTokens (expandTokens toks) = sortTokens (expandTokens toks')) ∧
    moveToTokenMultiset "8/5(2) 6/3*(2)" =
      ["6/3".toList, "6/3*".toList, "8/5".toList, "8/5".toList] ∧
    (↑(moveToTokenMultiset "8/5(2) 6/3*(2)") : Multiset (List Char)) =
      ↑["8/5".toList, "8/5".toList, "6/3*".toList, "6/3".toList] := by
  have ps : ∀ l : List (List Char), (sortTokens l).Perm l :=
    fun l => List.perm_insertionSort _ l
  have ss : ∀ l : List (List Char), List.Sorted (· ≤ ·) (sortTokens l) :=
    fun l => List.sorted_insertionSort _ l
  refine ⟨?_, ?_, ?_, ?_⟩
  · intro a b
    rw [moveToTokenMultiset_eq, moveToTokenMultiset_eq]
    constructor
    · intro h
      exact (ps _).symm.trans (by rw [h]; exact ps _)
    · intro p
      exact List.eq_of_perm_of_sorted ((ps _).trans (p.trans (ps _).symm))
        (ss _) (ss _)
  · intro toks toks' p
    have hperm : (expandTokens toks).Perm (expandTokens toks') := by
      rw [expandTokens_eq_flatMap, expandTokens_eq_flatMap]
      exact List.Perm.flatMap_right _ p
    exact List.eq_of_perm_of_sorted ((ps _).trans (hperm.trans (ps _).symm))
      (ss _) (ss _)
  · decide
  · rw [Multiset.coe_eq_coe]
    decide

/-- Witness for `C8_canonical_equivalence`: reordering the two raw
tokens leaves the canonical form unchanged. -/
theorem C8_canonical_equivalence_witness :
    sortTokens (expandTokens ["6/3*(2)".toList, "8/5(2)".toList]) =
      sortTokens (expandTokens ["8/5(2)".toList, "6/3*(2)".toList]) :=
  C8_canonical_equivalence.2.1 _ _ (by decide)

/-!
Quiz store (`gameCore.js`): stored quiz records, `getNextQuiz`,
`mergeQuizzesPayload`, `saveQuizzes`, the statistics endpoint.
-/

/-- JS `s.trim()` as a `String`. -/
def trimStr (s : String) : String := String.mk (trimList s.toList)

/-- A stored quiz position, restricted to the fields the store logic
reads.  `id = ""` models a missing/falsy id; `none` in a numeric field
models a missing or non-finite JS value (`Number(x) || 0` reads 0). -/
structure QuizRec where
  id : String
  userName : Option String
  equityDiff : Option ℚ
  playCount : Option ℕ
  correctAnswers : Option ℕ
  deriving DecidableEq, Repr

/-- The score of `getNextQuiz`:
`equityDiff / (1 + correctAnswers² × 10 + playCount × 2)`. -/
def quizScore (p : QuizRec) : ℚ :=
  let equityLoss := p.equityDiff.getD 0
  let ca : ℚ := (p.correctAnswers.getD 0 : ℕ)
  let pc : ℚ := (p.playCount.getD 0 : ℕ)
  equityLoss / (1 + ca * ca * 10 + pc * 2)

/-- The optional player filter of `getNextQuiz`: an exact-name filter
applied only when the filter string trims to something non-empty. -/
def filterByPlayer (positions : List QuizRec) (playerFilter : Option String) :
    List QuizRec :=
  match playerFilter with
  | some f =>
    if !(trimStr f).isEmpty then
      positions.filter (fun p => p.userName == some (trimStr f))
    else positions
  | none => positions

/-- The selection loop of `getNextQuiz`: start from `bestScore = -∞` and
replace the best only on a strict improvement (so the first occurrence of
the maximal score wins). -/
def pickBest (l : List QuizRec) : Option QuizRec :=
  l.foldl
    (fun acc p =>
      match acc with
      | none => some p
      | some b => if quizScore b < quizScore p then some p else some b)
    none

/-- `getNextQuiz`: filter, return null on an empty set, else the
strict-improvement maximum of `quizScore`. -/
def getNextQuiz (positions : List QuizRec) (playerFilter : Option String) :
    Option QuizRec :=
  let ps := filterByPlayer positions playerFilter
  if ps.isEmpty then none else pickBest ps

/-- The loop of `pickBest` once a first candidate is in hand. -/
def goBest (b : QuizRec) (l : List QuizRec) : QuizRec :=
  l.foldl (fun b p => if quizScore b < quizScore p then p else b) b

lemma pickBest_cons (q : QuizRec) (qs : List QuizRec) :
    pickBest (q :: qs) = some (goBest q qs) := by
  suffices h : ∀ (l : List QuizRec) (b : QuizRec),
      l.foldl
        (fun acc p =>
          match acc with
          | none => some p
          | some b => if quizScore b < quizScore p then some p else some b)
        (some b) = some (goBest b l) by
    simpa [pickBest] using h qs q
  intro l
  induction l with
  | nil => intro b; rfl
  | cons p ps ih =>
    intro b
    simp only [List.foldl_cons, goBest]
    split_ifs with h
    · exact ih p
    · exact ih b

lemma goBest_spec (l : List QuizRec) (b : QuizRec) :
    ∃ l₁ l₂, b :: l = l₁ ++ goBest b l :: l₂ ∧
      (∀ p ∈ l₁, quizScore p < quizScore (goBest b l)) ∧
      (∀ p ∈ l₂, quizScore p ≤ quizScore (goBest b l)) := by
  induction l generalizing b with
  | nil => exact ⟨[], [], rfl, by simp, by simp⟩
  | cons p ps ih =>
    by_cases hlt : quizScore b < quizScore p
    · obtain ⟨l₁, l₂, hsplit, hl1, hl2⟩ := ih p
      have hgo : goBest b (p :: ps) = goBest p ps := by
        simp [goBest, List.foldl_cons, if_pos hlt]
      have hpr : quizScore p ≤ quizScore (goBest p ps) := by
        cases l₁ with
        | nil =>
          have : p = goBest p ps := by simpa using congrArg (·.head?) hsplit
          exact this ▸ le_refl _
        | cons x t =>
          have hx : p = x := by simpa using congrArg (·.head?) hsplit
          exact le_of_lt (hx ▸ hl1 x (List.mem_cons_self x t))
      refine ⟨b :: l₁, l₂, ?_, ?_, by rw [hgo]; exact hl2⟩
      · rw [hgo, List.cons_append, ← hsplit]
      · intro x hx
        rcases List.mem_cons.mp hx with rfl | hmem
        · rw [hgo]; exact lt_of_lt_of_le hlt hpr
        · rw [hgo]; exact hl1 x hmem
    · obtain ⟨l₁, l₂, hsplit, hl1, hl2⟩ := ih b
      have hgo : goBest b (p :: ps) = goBest b ps := by
        simp [goBest, List.foldl_cons, if_neg hlt]
      cases l₁ with
      | nil =>
        have hb : b = goBest b ps := by simpa using congrArg (·.head?) hsplit
        have hps : ps = l₂ := by simpa using congrArg (·.tail?) hsplit
        refine ⟨[], p :: ps, by rw [hgo, ← hb]; simp, by simp, ?_⟩
        intro x hx
        rcases List.mem_cons.mp hx with rfl | hmem
        · rw [hgo, ← hb]; exact not_lt.mp hlt
        · rw [hgo]; exact hl2 x (hps ▸ hmem)
      | cons y t =>
        have hy : b = y := by simpa using congrArg (·.head?) hsplit
        have hps : ps = t ++ goBest b ps :: l₂ := by
          simpa using congrArg (·.tail?) hsplit
        have hbr : quizScore b < quizScore (goBest b ps) :=
          hy ▸ hl1 y (List.mem_cons_self y t)
        refine ⟨b :: p :: t, l₂, ?_, ?_, by rw [hgo]; exact hl2⟩
        · rw [hgo]
          simp only [List.cons_append]
          rw [← hps]
        · intro x hx
          rcases List.mem_cons.mp hx with rfl | hmem
          · rw [hgo]; exact hbr
          · rcases List.mem_cons.mp hmem with rfl | hmem2
            · rw [hgo]; exact lt_of_le_of_lt (not_lt.mp hlt) hbr
            · rw [hgo]; exact hl1 x (hy ▸ List.mem_cons_of_mem y hmem2)

/-- The two example positions of the spec's ranking-formula seed:
A `{equityDiff: 0.3, playCount: 0, correctAnswers: 0}` and
B `{equityDiff: 0.5, playCount: 2, correctAnswers: 2}`. -/
def exampleA : QuizRec := ⟨"a", none, some (3/10), some 0, some 0⟩

/-- Example position B of the ranking-formula seed. -/
def exampleB : QuizRec := ⟨"b", none, some (1/2), some 2, some 2⟩

/-- Claim C6: `getNextQuiz` returns null on an empty filtered set, and on
a non-empty filtered set it returns a position of maximal
`equityDiff / (1 + 10·correctAnswers² + 2·playCount)` score whose
strict predecessors in stored order all score strictly lower (ties broken
by first occurrence); in particular it returns A over B in the spec's
example. -/
theorem C6_getNextQuiz :
    (∀ (positions : List QuizRec) (playerFilter : Option String),
      (filterByPlayer positions playerFilter = [] →
        getNextQuiz positions playerFilter = none) ∧
      (filterByPlayer positions playerFilter ≠ [] →
        ∃ r l₁ l₂, getNextQuiz positions playerFilter = some r ∧
          filterByPlayer positions playerFilter = l₁ ++ r :: l₂ ∧
          (∀ p ∈ l₁, quizScore p < quizScore r) ∧
          (∀ p ∈ l₂, quizScore p ≤ quizScore r) ∧
          (∀ p ∈ filterByPlayer positions playerFilter,
            quizScore p ≤ quizScore r))) ∧
    getNextQuiz [exampleA, exampleB] none = some exampleA := by
  constructor
  · intro positions playerFilter
    constructor
    · intro h
      simp [getNextQuiz, h]
    · intro h
      rcases hps : filterByPlayer positions playerFilter with _ | ⟨q, qs⟩
      · exact absurd hps h
      · obtain ⟨l₁, l₂, hsplit, hl1, hl2⟩ := goBest_spec qs q
        refine ⟨goBest q qs, l₁, l₂, ?_, hps ▸ hsplit, hl1, hl2, ?_⟩
        · simp [getNextQuiz, hps, pickBest_cons]
        · intro p hp
          rw [hsplit] at hp
          rcases List.mem_append.mp hp with hmem | hmem
          · exact le_of_lt (hl1 p hmem)
          · rcases List.mem_cons.mp hmem with rfl | hmem2
            · exact le_refl _
            · exact hl2 p hmem2
  · have hA : quizScore exampleA = 3/10 := by
      simp [quizScore, exampleA]
    have hB : quizScore exampleB = 1/90 := by
      simp [quizScore, exampleB]
      norm_num
    have hcmp : ¬ (quizScore exampleA < quizScore exampleB) := by
      rw [hA, hB]; norm_num
    simp [getNextQuiz, filterByPlayer, pickBest_cons, goBest, hcmp]

/-- Witness for `C6_getNextQuiz` on the spec's two example positions. -/
theorem C6_getNextQuiz_witness :
    ∃ r l₁ l₂, getNextQuiz [exampleA, exampleB] none = some r ∧
      filterByPlayer [exampleA, exampleB] none = l₁ ++ r :: l₂ ∧
      (∀ p ∈ l₁, quizScore p < quizScore r) ∧
      (∀ p ∈ l₂, quizScore p ≤ quizScore r) ∧
      (∀ p ∈ filterByPlayer [exampleA, exampleB] none,
        quizScore p ≤ quizScore r) :=
  (C6_getNextQuiz.1 [exampleA, exampleB] none).2 (by simp [filterByPlayer])

/-!
Engine driver (`gnubgRunner.js`): `runGnuBgAnalysis` as a function of the
environment (executable path, bridge script, spawn outcome).  A rejected
promise is `Except.error`.
-/

/-- One engine candidate move. -/
structure AnalysisMove where
  move : String
  equity : Option ℚ
  mwc : Option ℚ
  deriving DecidableEq, Repr

/-- The engine result consumed by callers. -/
structure AnalysisResult where
  engineAvailable : Bool
  moves : List AnalysisMove
  deriving DecidableEq, Repr

/-- What the output file holds when the child process closes. -/
inductive OutputFile
  | missing
  | unreadable (msg : String)
  | ok (result : AnalysisResult)
  deriving DecidableEq, Repr

/-- How the spawned child process behaves. -/
inductive SpawnOutcome
  | launchFailure (msg : String)
  | finished (output : OutputFile)
  deriving DecidableEq, Repr

/-- The environment `runGnuBgAnalysis` runs in: `GNU_BG_PATH`, whether
the bundled python bridge script exists, and the spawn outcome. -/
structure GnuBgEnv where
  gnuBgPath : Option String
  scriptExists : Bool
  spawn : SpawnOutcome
  deriving DecidableEq, Repr

/-- JS falsiness of `process.env.GNU_BG_PATH` (unset or empty). -/
def envPathUnset (env : GnuBgEnv) : Bool :=
  match env.gnuBgPath with
  | none => true
  | some s => s.isEmpty

/-- `runGnuBgAnalysis`: resolve `{engineAvailable:false, moves:[]}` when
the executable is unconfigured; reject when the bridge script is missing;
reject on a spawn `error` event; on close, resolve the parsed output
file, or the `engineAvailable:false` fallback when no output file exists,
or reject when the output file cannot be read or parsed. -/
def runGnuBgAnalysis (env : GnuBgEnv) (matchId : String) :
    Except String AnalysisResult :=
  if envPathUnset env then
    .ok { engineAvailable := false, moves := [] }
  else if !env.scriptExists then
    .error "Python bridge script not found"
  else
    match env.spawn with
    | .launchFailure msg => .error ("Failed to start gnubg: " ++ msg)
    | .finished .missing => .ok { engineAvailable := false, moves := [] }
    | .finished (.unreadable msg) => .error ("Error reading gnubg output: " ++ msg)
    | .finished (.ok out) => .ok out

/-- Claim C3, counterexample: when the spawned engine process fails to
launch (the child emits `error`), `runGnuBgAnalysis` rejects instead of
returning `engineAvailable:false`. -/
theorem C3_counterexample :
    runGnuBgAnalysis
      { gnuBgPath := some "C:/gnubg/gnubg.exe", scriptExists := true,
        spawn := .launchFailure "spawn ENOENT" } "gnuid"
      = .error ("Failed to start gnubg: " ++ "spawn ENOENT") := rfl

/-- Claim C3, amended: `runGnuBgAnalysis` returns (rather than throws)
`engineAvailable=false` with an empty moves list whenever the executable
is unconfigured, and also whenever the spawned process terminates without
producing an output file; but when the spawn itself fails to launch the
promise rejects with `Failed to start gnubg`. -/
theorem C3_runGnuBgAnalysis (env : GnuBgEnv) (matchId : String) :
    (envPathUnset env = true →
      runGnuBgAnalysis env matchId =
        .ok { engineAvailable := false, moves := [] }) ∧
    (envPathUnset env = false → env.scriptExists = true →
      env.spawn = .finished .missing →
      runGnuBgAnalysis env matchId =
        .ok { engineAvailable := false, moves := [] }) ∧
    (∀ msg, envPathUnset env = false → env.scriptExists = true →
      env.spawn = .launchFailure msg →
      runGnuBgAnalysis env matchId =
        .error ("Failed to start gnubg: " ++ msg)) := by
  refine ⟨?_, ?_, ?_⟩
  · intro h
    simp [runGnuBgAnalysis, h]
  · intro h hs hspawn
    simp [runGnuBgAnalysis, h, hs, hspawn]
  · intro msg h hs hspawn
    simp [runGnuBgAnalysis, h, hs, hspawn]

/-- Witness for `C3_runGnuBgAnalysis`: unconfigured path and
missing-output cases at concrete environments. -/
theorem C3_runGnuBgAnalysis_witness :
    runGnuBgAnalysis
        { gnuBgPath := none, scriptExists := true,
          spawn := .finished .missing } "gnuid"
      = .ok { engineAvailable := false, moves := [] } ∧
    runGnuBgAnalysis
        { gnuBgPath := some "C:/gnubg/gnubg.exe", scriptExists := true,
          spawn := .finished .missing } "gnuid"
      = .ok { engineAvailable := false, moves := [] } :=
  ⟨(C3_runGnuBgAnalysis
      { gnuBgPath := none, scriptExists := true,
        spawn := .finished .missing } "gnuid").1 rfl,
    (C3_runGnuBgAnalysis
      { gnuBgPath := some "C:/gnubg/gnubg.exe", scriptExists := true,
        spawn := .finished .missing } "gnuid").2.1 rfl rfl rfl⟩

/-!
Statistics endpoint (`GET /getStatistics`): per-position play statistics,
ascending stable sort by correctness rate, worst three.
-/

/-- One entry of `quizzesWithStats`. -/
structure StatRec where
  id : String
  playCount : ℕ
  correctAnswers : ℕ
  correctnessRate : ℚ
  deriving DecidableEq, Repr

/-- The statistics loop: keep the positions with `playCount > 0`,
carrying id, counters and `correctAnswers / playCount`. -/
def statsOf (positions : List QuizRec) : List StatRec :=
  positions.foldl
    (fun acc p =>
      let pc := p.playCount.getD 0
      let ca := p.correctAnswers.getD 0
      if 0 < pc then
        acc ++ [⟨p.id, pc, ca, (ca : ℚ) / (pc : ℚ)⟩]
      else acc) []

/-- The sort key comparison `a.correctnessRate - b.correctnessRate ≤ 0`
of the statistics sort. -/
def rateLe (a b : StatRec) : Prop := a.correctnessRate ≤ b.correctnessRate

instance : DecidableRel rateLe :=
  fun a b => inferInstanceAs (Decidable (a.correctnessRate ≤ b.correctnessRate))

instance : IsTotal StatRec rateLe := ⟨fun a b => le_total _ _⟩

instance : IsTrans StatRec rateLe := ⟨fun _ _ _ => le_trans⟩

/-- JS `Array.prototype.sort` with the rate comparator: a stable
ascending sort (ES2019 sorts are stable; insertion sort realizes the
same result). -/
def sortStats (l : List StatRec) : List StatRec := List.insertionSort rateLe l

/-- The `worstQuizzes` value of the statistics response: the first three
entries of the rate-sorted statistics list. -/
def worstQuizzes (positions : List QuizRec) : List StatRec :=
  (sortStats (statsOf positions)).take 3

lemma filter_rate_orderedInsert (a : StatRec) (l : List StatRec) (q : ℚ) :
    (List.orderedInsert rateLe a l).filter
        (fun s => decide (s.correctnessRate = q)) =
      if a.correctnessRate = q then
        a :: l.filter (fun s => decide (s.correctnessRate = q))
      else l.filter (fun s => decide (s.correctnessRate = q)) := by
  induction l with
  | nil =>
    simp only [List.orderedInsert]
    split_ifs with h <;> simp [List.filter, h]
  | cons b t ih =>
    simp only [List.orderedInsert]
    by_cases hab : rateLe a b
    · rw [if_pos hab]
      by_cases haq : a.correctnessRate = q <;>
        simp [List.filter_cons, haq]
    · rw [if_neg hab]
      have hba : b.correctnessRate < a.correctnessRate := not_le.mp hab
      by_cases haq : a.correctnessRate = q
      · have hbq : ¬ b.correctnessRate = q := by
          rw [← haq]; exact ne_of_lt hba
        simp [List.filter_cons, hbq, ih, haq]
      · by_cases hbq : b.correctnessRate = q <;>
          simp [List.filter_cons, hbq, ih, haq]

/-- Stability of the statistics sort: the entries of any fixed rate
appear in the sorted list exactly as they appear in the input. -/
lemma filter_rate_sortStats (l : List StatRec) (q : ℚ) :
    (sortStats l).filter (fun s => decide (s.correctnessRate = q)) =
      l.filter (fun s => decide (s.correctnessRate = q)) := by
  induction l with
  | nil => rfl
  | cons a t ih =>
    show (List.orderedInsert rateLe a (sortStats t)).filter _ = _
    rw [filter_rate_orderedInsert, ih]
    by_cases haq : a.correctnessRate = q <;> simp [List.filter_cons, haq]

/-- Claim C4, counterexample: with two stored positions of equal
correctness ratio 0 (playCounts 1 and 2, in that stored order), the
statistics endpoint returns the playCount-1 entry first: the sort is
stable on ties, it does not order the higher playCount first. -/
theorem C4_counterexample :
    worstQuizzes
        [⟨"x", none, none, some 1, some 0⟩, ⟨"y", none, none, some 2, some 0⟩] =
      [⟨"x", 1, 0, 0⟩, ⟨"y", 2, 0, 0⟩] ∧
    (⟨"x", 1, 0, 0⟩ : StatRec).correctnessRate =
      (⟨"y", 2, 0, 0⟩ : StatRec).correctnessRate ∧
    (⟨"x", 1, 0, 0⟩ : StatRec).playCount <
      (⟨"y", 2, 0, 0⟩ : StatRec).playCount := by
  refine ⟨?_, by norm_num, by norm_num⟩
  norm_num [worstQuizzes, sortStats, statsOf, List.insertionSort,
    List.orderedInsert, rateLe]

/-- Claim C4, amended: the statistics endpoint returns the (at most)
three positions with the lowest `correctAnswers/playCount` ratio among
positions with `playCount > 0`, in ascending rate order, and positions of
equal ratio retain their stored order (a stable sort; the claimed
higher-playCount-first tiebreak does not hold, see the counterexample). -/
theorem C4_worstQuizzes (positions : List QuizRec) :
    (worstQuizzes positions).length = min 3 (statsOf positions).length ∧
    List.Sorted rateLe (worstQuizzes positions) ∧
    (∃ rest, (statsOf positions).Perm (worstQuizzes positions ++ rest) ∧
      ∀ a ∈ worstQuizzes positions, ∀ b ∈ rest, rateLe a b) ∧
    (∀ q : ℚ,
      (worstQuizzes positions).filter (fun s => decide (s.correctnessRate = q)) =
        ((statsOf positions).filter
            (fun s => decide (s.correctnessRate = q))).take
          ((worstQuizzes positions).filter
              (fun s => decide (s.correctnessRate = q))).length) := by
  have hperm : (sortStats (statsOf positions)).Perm (statsOf positions) :=
    List.perm_insertionSort _ _
  have hsort : List.Sorted rateLe (sortStats (statsOf positions)) :=
    List.sorted_insertionSort _ _
  refine ⟨?_, ?_, ?_, ?_⟩
  · rw [worstQuizzes, List.length_take, hperm.length_eq]
  · exact List.Pairwise.sublist (List.take_sublist 3 _) hsort
  · refine ⟨(sortStats (statsOf positions)).drop 3, ?_, ?_⟩
    · rw [worstQuizzes, List.take_append_drop]
      exact hperm.symm
    · have hp : List.Pairwise rateLe
          ((sortStats (statsOf positions)).take 3 ++
            (sortStats (statsOf positions)).drop 3) := by
        rw [List.take_append_drop]; exact hsort
      exact (List.pairwise_append.mp hp).2.2
  · intro q
    have h1 : (statsOf positions).filter (fun s => decide (s.correctnessRate = q)) =
        (worstQuizzes positions).filter (fun s => decide (s.correctnessRate = q)) ++
          ((sortStats (statsOf positions)).drop 3).filter
            (fun s => decide (s.correctnessRate = q)) := by
      rw [← filter_rate_sortStats (statsOf positions) q, worstQuizzes,
        ← List.filter_append, List.take_append_drop]
    rw [h1, List.take_left]

/-- Witness for `C4_worstQuizzes` at the counterexample's two stored
positions (the fourth conjunct instantiated at rate 0). -/
theorem C4_worstQuizzes_witness :
    (worstQuizzes
        [⟨"x", none, none, some 1, some 0⟩,
          ⟨"y", none, none, some 2, some 0⟩]).filter
        (fun s => decide (s.correctnessRate = 0)) =
      ((statsOf
          [⟨"x", none, none, some 1, some 0⟩,
            ⟨"y", none, none, some 2, some 0⟩]).filter
          (fun s => decide (s.correctnessRate = 0))).take
        ((worstQuizzes
            [⟨"x", none, none, some 1, some 0⟩,
              ⟨"y", none, none, some 2, some 0⟩]).filter
            (fun s => decide (s.correctnessRate = 0))).length :=
  (C4_worstQuizzes
    [⟨"x", none, none, some 1, some 0⟩, ⟨"y", none, none, some 2, some 0⟩]).2.2.2 0

/-!
Merge-on-write (`mergeQuizzesPayload` / `saveQuizzes`): positions keyed
by id (a JS `Map` in insertion order), collision rule for the play
counters, incoming-wins rule for `threshold` and `engineAvailable`.
-/

/-- Modelled from the spec: `DEFAULT_MISTAKE_THRESHOLD` lives in the
repository's `constants.js`, which is not among the provided sources; the
spec's mistake-detection seed fixes the default threshold at 0.08. -/
def DEFAULT_MISTAKE_THRESHOLD : ℚ := 8 / 100

/-- A quizzes document: `engineAvailable`, `threshold` (either may be
unset) and the positions. -/
structure QuizzesPayload where
  engineAvailable : Option Bool
  threshold : Option ℚ
  positions : List QuizRec
  deriving DecidableEq, Repr

/-- `ensureQuizFields`: default the play counters to 0 and compute the
content-addressed id when missing.  The SHA-1 id derivation
(`computePositionId`) is abstracted as `computeId`. -/
def ensureQuizFields (computeId : QuizRec → String) (p : QuizRec) : QuizRec :=
  let p := { p with playCount := some (p.playCount.getD 0),
                    correctAnswers := some (p.correctAnswers.getD 0) }
  if p.id = "" then { p with id := computeId p } else p

/-- JS `Map.prototype.set`: replace the value at an existing key in
place, else append the new entry. -/
def upsert (m : List QuizRec) (p : QuizRec) : List QuizRec :=
  match m with
  | [] => [p]
  | q :: rest => if q.id = p.id then p :: rest else q :: upsert rest p

/-- The collision rule of the incoming loop:
`playCount := max`, `correctAnswers := max` clamped to `playCount`;
all other fields keep the existing entry's values. -/
def mergedRec (q p : QuizRec) : QuizRec :=
  let pc := max (q.playCount.getD 0) (p.playCount.getD 0)
  let ca0 := max (q.correctAnswers.getD 0) (p.correctAnswers.getD 0)
  { q with playCount := some pc,
           correctAnswers := some (if ca0 > pc then pc else ca0) }

/-- The incoming loop body for one record: update the colliding entry in
place, else append the new entry (as `Map.set` would). -/
def mergeInto (m : List QuizRec) (p : QuizRec) : List QuizRec :=
  match m with
  | [] => [p]
  | q :: rest =>
    if q.id = p.id then mergedRec q p :: rest else q :: mergeInto rest p

/-- `mergeQuizzesPayload`: seed the id-keyed map from the existing
positions (ensured, skipping falsy ids), fold the incoming positions
through the collision rule, and resolve `engineAvailable`/`threshold`
incoming-first. -/
def mergeQuizzesPayload (computeId : QuizRec → String)
    (existing incoming : QuizzesPayload) : QuizzesPayload :=
  let m := existing.positions.foldl
    (fun m original =>
      let p := ensureQuizFields computeId original
      if p.id ≠ "" then upsert m p else m) []
  let m := incoming.positions.foldl
    (fun m original =>
      let p := ensureQuizFields computeId original
      if p.id = "" then m else mergeInto m p) m
  { engineAvailable :=
      some (incoming.engineAvailable.getD (existing.engineAvailable.getD true)),
    threshold :=
      some (incoming.threshold.getD
        (existing.threshold.getD DEFAULT_MISTAKE_THRESHOLD)),
    positions := m }

/-- `saveQuizzes`: read the stored document, merge the new payload into
it, write the result back (one transaction). -/
def saveQuizzes (computeId : QuizRec → String)
    (stored incoming : QuizzesPayload) : QuizzesPayload :=
  mergeQuizzesPayload computeId stored incoming

/-- Find the entry of the id-keyed position list with the given id. -/
def lookupId (m : List QuizRec) (i : String) : Option QuizRec :=
  m.find? (fun q => q.id = i)

lemma lookupId_upsert_self (m : List QuizRec) (p : QuizRec) :
    lookupId (upsert m p) p.id = some p := by
  induction m with
  | nil => simp [upsert, lookupId, List.find?]
  | cons q rest ih =>
    by_cases h : q.id = p.id
    · simp [upsert, h, lookupId, List.find?]
    · simpa [upsert, h, lookupId, List.find?_cons, h] using ih

lemma lookupId_upsert_ne (m : List QuizRec) (p : QuizRec) (i : String)
    (h : p.id ≠ i) : lookupId (upsert m p) i = lookupId m i := by
  induction m with
  | nil => simp [upsert, lookupId, List.find?, h]
  | cons q rest ih =>
    by_cases hq : q.id = p.id
    · simp [upsert, hq, lookupId, List.find?_cons, h, hq ▸ h]
    · simp only [upsert, if_neg hq, lookupId, List.find?_cons] at *
      by_cases hqi : q.id = i <;> simp [hqi, ih]

lemma mergedRec_id (q p : QuizRec) : (mergedRec q p).id = q.id := rfl

lemma lookupId_mergeInto_ne (m : List QuizRec) (p : QuizRec) (i : String)
    (h : p.id ≠ i) : lookupId (mergeInto m p) i = lookupId m i := by
  induction m with
  | nil => simp [mergeInto, lookupId, List.find?, h]
  | cons q rest ih =>
    by_cases hq : q.id = p.id
    · simp [mergeInto, hq, lookupId, List.find?_cons, mergedRec_id, h]
    · simp only [mergeInto, if_neg hq, lookupId, List.find?_cons] at *
      by_cases hqi : q.id = i <;> simp [hqi, ih]

lemma lookupId_mergeInto_found (m : List QuizRec) (p q : QuizRec)
    (hq : lookupId m p.id = some q) :
    lookupId (mergeInto m p) p.id = some (mergedRec q p) := by
  induction m with
  | nil => simp [lookupId, List.find?] at hq
  | cons r rest ih =>
    by_cases hr : r.id = p.id
    · have hrq : r = q := by
        simpa [lookupId, List.find?_cons, hr] using hq
      subst hrq
      simp [mergeInto, hr, lookupId, List.find?_cons, mergedRec_id]
    · have hq' : lookupId rest p.id = some q := by
        simpa [lookupId, List.find?_cons, hr] using hq
      have ihr := ih hq'
      simp only [lookupId, List.find?_cons] at ihr ⊢
      simp [mergeInto, hr, ihr]

lemma ensure_playCount (computeId : QuizRec → String) (p : QuizRec) :
    (ensureQuizFields computeId p).playCount = some (p.playCount.getD 0) := by
  simp only [ensureQuizFields]
  split_ifs <;> rfl

lemma ensure_correctAnswers (computeId : QuizRec → String) (p : QuizRec) :
    (ensureQuizFields computeId p).correctAnswers =
      some (p.correctAnswers.getD 0) := by
  simp only [ensureQuizFields]
  split_ifs <;> rfl

lemma merge_positions_eq (computeId : QuizRec → String)
    (existing incoming : QuizzesPayload) :
    (mergeQuizzesPayload computeId existing incoming).positions =
      (incoming.positions.map (ensureQuizFields computeId)).foldl
        (fun m p => if p.id = "" then m else mergeInto m p)
        ((existing.positions.map (ensureQuizFields computeId)).foldl
          (fun m p => if p.id ≠ "" then upsert m p else m) []) := by
  simp [mergeQuizzesPayload, List.foldl_map]

lemma lookup_exFold_none (Q : List QuizRec) (m : List QuizRec) (i : String)
    (h : ∀ p ∈ Q, p.id ≠ i) :
    lookupId (Q.foldl (fun m p => if p.id ≠ "" then upsert m p else m) m) i =
      lookupId m i := by
  induction Q generalizing m with
  | nil => rfl
  | cons p Q' ih =>
    simp only [List.foldl_cons]
    rw [ih _ (fun q hq => h q (List.mem_cons_of_mem p hq))]
    by_cases hp : p.id ≠ ""
    · rw [if_pos hp]
      exact lookupId_upsert_ne m p i (h p (List.mem_cons_self p Q'))
    · rw [if_neg hp]

lemma lookup_inFold_none (Q : List QuizRec) (m : List QuizRec) (i : String)
    (h : ∀ p ∈ Q, p.id ≠ i) :
    lookupId (Q.foldl (fun m p => if p.id = "" then m else mergeInto m p) m) i =
      lookupId m i := by
  induction Q generalizing m with
  | nil => rfl
  | cons p Q' ih =>
    simp only [List.foldl_cons]
    rw [ih _ (fun q hq => h q (List.mem_cons_of_mem p hq))]
    by_cases hp : p.id = ""
    · rw [if_pos hp]
    · rw [if_neg hp]
      exact lookupId_mergeInto_ne m p i (h p (List.mem_cons_self p Q'))

lemma lookup_exFold_unique (Q : List QuizRec) (m : List QuizRec) (i : String)
    (hne : i ≠ "") (e : QuizRec) (hei : e.id = i) (he : e ∈ Q)
    (hcount : Q.countP (fun p => decide (p.id = i)) = 1) :
    lookupId (Q.foldl (fun m p => if p.id ≠ "" then upsert m p else m) m) i =
      some e := by
  induction Q generalizing m with
  | nil => cases he
  | cons p Q' ih =>
    simp only [List.foldl_cons]
    rw [List.countP_cons] at hcount
    by_cases hpi : p.id = i
    · have hz : Q'.countP (fun p => decide (p.id = i)) = 0 := by
        have hdec : decide (p.id = i) = true := by simp [hpi]
        rw [hdec] at hcount
        simpa using hcount
      have hno : ∀ q ∈ Q', q.id ≠ i := by
        intro q hq
        have := List.countP_eq_zero.mp hz q hq
        simpa using this
      have hpe : p = e := by
        rcases List.mem_cons.mp he with h1 | h1
        · exact h1.symm
        · exact absurd hei (hno e h1)
      subst hpe
      rw [lookup_exFold_none Q' _ i hno, if_pos (by rw [hpi]; exact hne)]
      have := lookupId_upsert_self m p
      rwa [hpi] at this
    · have hc' : Q'.countP (fun p => decide (p.id = i)) = 1 := by
        have hdec : decide (p.id = i) = false := by simp [hpi]
        rw [hdec] at hcount
        simpa using hcount
      have hmem : e ∈ Q' := by
        rcases List.mem_cons.mp he with h1 | h1
        · exact absurd (h1 ▸ hei) hpi
        · exact h1
      exact ih _ hmem hc'

lemma lookup_inFold_unique (Q : List QuizRec) (m : List QuizRec) (i : String)
    (hne : i ≠ "") (inc : QuizRec) (hii : inc.id = i) (hinc : inc ∈ Q)
    (q₀ : QuizRec) (hq : lookupId m i = some q₀)
    (hcount : Q.countP (fun p => decide (p.id = i)) = 1) :
    lookupId (Q.foldl (fun m p => if p.id = "" then m else mergeInto m p) m) i =
      some (mergedRec q₀ inc) := by
  induction Q generalizing m q₀ with
  | nil => cases hinc
  | cons p Q' ih =>
    simp only [List.foldl_cons]
    rw [List.countP_cons] at hcount
    by_cases hpi : p.id = i
    · have hz : Q'.countP (fun p => decide (p.id = i)) = 0 := by
        have hdec : decide (p.id = i) = true := by simp [hpi]
        rw [hdec] at hcount
        simpa using hcount
      have hno : ∀ q ∈ Q', q.id ≠ i := by
        intro q hq2
        have := List.countP_eq_zero.mp hz q hq2
        simpa using this
      have hpe : p = inc := by
        rcases List.mem_cons.mp hinc with h1 | h1
        · exact h1.symm
        · exact absurd hii (hno inc h1)
      subst hpe
      rw [lookup_inFold_none Q' _ i hno, if_neg (by rw [hpi]; exact hne)]
      have := lookupId_mergeInto_found m p q₀ (by rw [hpi]; exact hq)
      rwa [hpi] at this
    · have hc' : Q'.countP (fun p => decide (p.id = i)) = 1 := by
        have hdec : decide (p.id = i) = false := by simp [hpi]
        rw [hdec] at hcount
        simpa using hcount
      have hmem : inc ∈ Q' := by
        rcases List.mem_cons.mp hinc with h1 | h1
        · exact absurd (h1 ▸ hii) hpi
        · exact h1
      refine ih _ hmem _ ?_ hc'
      by_cases hp : p.id = ""
      · rw [if_pos hp]; exact hq
      · rw [if_neg hp]
        rw [lookupId_mergeInto_ne m p i hpi]
        exact hq

/-- Claim C7: the merge-on-write composes positions keyed by id; for an
id present (once, after field ensuring) in both the existing and the
incoming payload, the merged record has
`playCount = max(existing.playCount, incoming.playCount)` and
`correctAnswers = min(max(existing.correctAnswers, incoming.correctAnswers),
merged playCount)`; `threshold` and `engineAvailable` take the incoming
value when set and otherwise keep the existing value. -/
theorem C7_mergeQuizzesPayload (computeId : QuizRec → String)
    (existing incoming : QuizzesPayload) (i : String) (hne : i ≠ "")
    (e inc : QuizRec)
    (he : e ∈ existing.positions) (hinc : inc ∈ incoming.positions)
    (hei : (ensureQuizFields computeId e).id = i)
    (hii : (ensureQuizFields computeId inc).id = i)
    (hc1 : (existing.positions.map (ensureQuizFields computeId)).countP
        (fun p => decide (p.id = i)) = 1)
    (hc2 : (incoming.positions.map (ensureQuizFields computeId)).countP
        (fun p => decide (p.id = i)) = 1) :
    (∃ m, lookupId (mergeQuizzesPayload computeId existing incoming).positions i =
        some m ∧
      m.playCount = some (max (e.playCount.getD 0) (inc.playCount.getD 0)) ∧
      m.correctAnswers = some (min
        (max (e.correctAnswers.getD 0) (inc.correctAnswers.getD 0))
        (max (e.playCount.getD 0) (inc.playCount.getD 0)))) ∧
    (mergeQuizzesPayload computeId existing incoming).engineAvailable =
      some (incoming.engineAvailable.getD (existing.engineAvailable.getD true)) ∧
    (mergeQuizzesPayload computeId existing incoming).threshold =
      some (incoming.threshold.getD
        (existing.threshold.getD DEFAULT_MISTAKE_THRESHOLD)) := by
  refine ⟨?_, rfl, rfl⟩
  have hlk :
      lookupId (mergeQuizzesPayload computeId existing incoming).positions i =
        some (mergedRec (ensureQuizFields computeId e)
          (ensureQuizFields computeId inc)) := by
    rw [merge_positions_eq]
    exact lookup_inFold_unique _ _ i hne
      (ensureQuizFields computeId inc) hii
      (List.mem_map_of_mem _ hinc)
      (ensureQuizFields computeId e)
      (lookup_exFold_unique _ [] i hne (ensureQuizFields computeId e) hei
        (List.mem_map_of_mem _ he) hc1)
      hc2
  refine ⟨_, hlk, ?_, ?_⟩
  · simp [mergedRec, ensure_playCount]
  · simp [mergedRec, ensure_playCount, ensure_correctAnswers]
    split_ifs <;> omega

/-- Witness for `C7_mergeQuizzesPayload`: a concrete collision with
counters `(3,2)` and `(5,1)`, `threshold` set on the incoming side and
`engineAvailable` only on the existing side. -/
theorem C7_mergeQuizzesPayload_witness :
    ∃ m, lookupId (mergeQuizzesPayload (fun _ => "h")
        ⟨some true, some (8/100), [⟨"k", none, none, some 3, some 2⟩]⟩
        ⟨none, some (1/10), [⟨"k", none, none, some 5, some 1⟩]⟩).positions "k" =
      some m ∧
      m.playCount = some (max 3 5) ∧
      m.correctAnswers = some (min (max 2 1) (max 3 5)) :=
  (C7_mergeQuizzesPayload (fun _ => "h")
    ⟨some true, some (8/100), [⟨"k", none, none, some 3, some 2⟩]⟩
    ⟨none, some (1/10), [⟨"k", none, none, some 5, some 1⟩]⟩ "k"
    (by decide) ⟨"k", none, none, some 3, some 2⟩ ⟨"k", none, none, some 5, some 1⟩
    (by simp) (by simp) (by simp [ensureQuizFields]) (by simp [ensureQuizFields])
    (by simp [ensureQuizFields]) (by simp [ensureQuizFields])).1

/-!
Position and match ID codec (`BackgammonBoard.toPositionId`,
`toMatchId`, `toGnuId`, `fromGnuId`): little-endian bit packing and
base64 without padding.
-/

/-- JS `#bitsToBytesLe`: pack a little-endian bit list into `byteCount`
bytes (missing bits read as 0). -/
def bitsToBytesLe (bits : List Bool) (byteCount : ℕ) : List ℕ :=
  (List.range byteCount).map (fun i =>
    (List.range 8).foldl
      (fun byte b => byte + (if bits.getD (i * 8 + b) false then 2 ^ b else 0))
      0)

/-- JS `#bytesToBitsLe`: unpack bytes into a little-endian bit list. -/
def bytesToBitsLe (bytes : List ℕ) : List Bool :=
  bytes.flatMap (fun v => (List.range 8).map (fun b => Nat.testBit v b))

/-- The base64 alphabet. -/
def base64Chars : List Char :=
  "ABCDEFGHIJKLMNOPQRSTUVWXYZabcdefghijklmnopqrstuvwxyz0123456789+/".toList

/-- The base64 digit for a 6-bit value. -/
def b64char (n : ℕ) : Char := base64Chars.getD n 'A'

/-- The 6-bit value of a base64 digit (`none` for `=` and any other
non-alphabet character). -/
def b64val (c : Char) : Option ℕ := base64Chars.indexOf? c

/-- Standard base64 encoding of a byte list, with `=` padding. -/
def base64Encode : List ℕ → List Char
  | [] => []
  | [b0] => [b64char (b0 / 4), b64char (b0 % 4 * 16), '=', '=']
  | [b0, b1] =>
    [b64char (b0 / 4), b64char (b0 % 4 * 16 + b1 / 16), b64char (b1 % 16 * 4), '=']
  | b0 :: b1 :: b2 :: rest =>
    b64char (b0 / 4) :: b64char (b0 % 4 * 16 + b1 / 16) ::
      b64char (b1 % 16 * 4 + b2 / 64) :: b64char (b2 % 64) :: base64Encode rest

/-- JS `#bytesToBase64Trim`: base64 with the trailing `=` stripped. -/
def bytesToBase64Trim (bytes : List ℕ) : List Char :=
  ((base64Encode bytes).reverse.dropWhile (· == '=')).reverse

/-- Decode base64 quads; a `=` (or any non-alphabet character) ends the
output as Node's decoder does on well-formed padded input. -/
def base64DecodeQuads : List Char → List ℕ
  | c0 :: c1 :: c2 :: c3 :: rest =>
    match b64val c0, b64val c1 with
    | some v0, some v1 =>
      let byte0 := v0 * 4 + v1 / 16
      match b64val c2 with
      | some v2 =>
        let byte1 := v1 % 16 * 16 + v2 / 4
        match b64val c3 with
        | some v3 => byte0 :: byte1 :: (v2 % 4 * 64 + v3) :: base64DecodeQuads rest
        | none => [byte0, byte1]
      | none => [byte0]
    | _, _ => []
  | _ => []

/-- JS `#base64ToBytes`: pad to a multiple of 4 and decode. -/
def base64ToBytes (text : List Char) : List ℕ :=
  let padLen := (4 - text.length % 4) % 4
  base64DecodeQuads (text ++ List.replicate padLen '=')

/-- One side of the position ID bit stream: points 1..24 then the bar,
each slot as `count` one-bits (clamped to 0..15) and a zero terminator. -/
def pushSide (arr : List ℤ) : List Bool :=
  ((List.range 24).flatMap (fun idx =>
    List.replicate (max 0 (min 15 (arr.getD (idx + 1) 0))).toNat true ++ [false]))
  ++ (List.replicate (max 0 (min 15 (arr.getD 25 0))).toNat true ++ [false])

/-- `toPositionId`: the current-turn side's bits first, then the
opponent's; 80 bits, 10 bytes, 14 base64 characters. -/
def toPositionId (b : BackgammonBoard) : List Char :=
  let current := b.turn
  let other := current.other
  let bits := pushSide (b.pointsOf current) ++ pushSide (b.pointsOf other)
  bytesToBase64Trim (bitsToBytesLe bits 10)

/-- JS `writeBits(value, width)`: `width` bits, least significant first. -/
def writeBitsLe (value width : ℕ) : List Bool :=
  (List.range width).map (fun i => Nat.testBit value i)

/-- The cube-exponent loop of `toMatchId`: halve while the value exceeds
1, at most 15 times. -/
def cubeExpOf (cube : ℤ) : ℕ :=
  ((List.range 15).foldl
    (fun (st : ℕ × ℕ) _ =>
      if st.1 > 1 then (st.1 / 2, st.2 + 1) else st)
    ((max 1 cube).toNat, 0)).2

/-- `toMatchId`: the 66-bit match key (cube, owner, roller, crawford,
game state, decision owner, double offered, resignation, dice, match
length, scores), zero-padded to 72 bits, 9 bytes, 12 base64 characters. -/
def toMatchId (b : BackgammonBoard) : List Char :=
  let exp := cubeExpOf b.cube
  let cubeOwnerBits : ℕ :=
    match b.cubeOwner with
    | some .player1 => 0
    | some .player2 => 1
    | none => 3
  let rollerBit : ℕ := if b.turn = .player2 then 1 else 0
  let d1 : ℕ := match b.dice with | some d => d.1.toNat | none => 0
  let d2 : ℕ := match b.dice with | some d => d.2.toNat | none => 0
  let mlen : ℕ :=
    match b.matchLength with
    | some v => (max 0 (min 32767 v)).toNat
    | none => 0
  let s1 : ℕ := (max 0 (min 32767 b.score1)).toNat
  let s2 : ℕ := (max 0 (min 32767 b.score2)).toNat
  let bits :=
    writeBitsLe exp 4 ++ writeBitsLe cubeOwnerBits 2 ++ writeBitsLe rollerBit 1 ++
    writeBitsLe 0 1 ++ writeBitsLe 1 3 ++ writeBitsLe rollerBit 1 ++
    writeBitsLe 0 1 ++ writeBitsLe 0 2 ++ writeBitsLe d1 3 ++ writeBitsLe d2 3 ++
    writeBitsLe mlen 15 ++ writeBitsLe s1 15 ++ writeBitsLe s2 15
  let bits := bits ++ List.replicate (72 - bits.length) false
  bytesToBase64Trim (bitsToBytesLe bits 9)

/-- `toGnuId`: `positionId:matchId`. -/
def toGnuId (b : BackgammonBoard) : List Char :=
  toPositionId b ++ ':' :: toMatchId b

/-- Read one unary-coded count: leading one-bits, then consume the zero
terminator when present. -/
def readCount (bits : List Bool) : ℕ × List Bool :=
  let c := (bits.takeWhile (fun b => b)).length
  (c, (bits.drop c).drop 1)

/-- Read one side of the position ID: points 1..24 then the bar, into a
fresh 26-slot array; returns the remaining bits. -/
def readSide (bits : List Bool) : List ℤ × List Bool :=
  let st := (List.range 24).foldl
    (fun (st : List ℤ × List Bool) idx =>
      let (c, bs) := readCount st.2
      (st.1.set (idx + 1) (c : ℤ), bs))
    (List.replicate 26 0, bits)
  let (bar, bs) := readCount st.2
  (st.1.set 25 (bar : ℤ), bs)

/-- The freshly-constructed board of `new BackgammonBoard()`. -/
def emptyBoard : BackgammonBoard :=
  { points1 := List.replicate 26 0, points2 := List.replicate 26 0,
    turn := .player1, cube := 1, cubeOwner := none, score1 := 0, score2 := 0,
    matchLength := none, dice := none }

/-- `#decodePositionIdInto`: validate the 14-character id, decode the
80-bit stream, assign the first unary side to `player1` and the second to
`player2` (the board's turn is still the constructor's `player1` here). -/
def decodePositionIdInto (board : BackgammonBoard) (posId : List Char) :
    Except String BackgammonBoard :=
  if posId.length ≠ 14 then .error "Invalid Position ID length"
  else
    let bytes := base64ToBytes posId
    if bytes.length ≠ 10 then .error "Invalid Position ID payload"
    else
      let bits := bytesToBitsLe bytes
      let (arr1, rest) := readSide bits
      let (arr2, _) := readSide rest
      .ok { board with points1 := arr1, points2 := arr2 }

/-- Read `w` bits at `ptr`, least significant first. -/
def readBitsAt (bits : List Bool) (ptr w : ℕ) : ℕ :=
  (List.range w).foldl
    (fun v i => v + (if bits.getD (ptr + i) false then 2 ^ i else 0)) 0

/-- `#decodeMatchIdInto`: decode the 12-character match id into cube,
cube owner, turn (the roller bit), dice, match length and scores; leave
the board unchanged on malformed input. -/
def decodeMatchIdInto (board : BackgammonBoard) (matchId : List Char) :
    BackgammonBoard :=
  if matchId.length ≠ 12 then board
  else
    let bytes := base64ToBytes matchId
    if bytes.length ≠ 9 then board
    else
      let bits := bytesToBitsLe bytes
      let cubeExp := readBitsAt bits 0 4
      let cubeOwnerBits := readBitsAt bits 4 2
      let rollerBit := readBitsAt bits 6 1
      let d1 := readBitsAt bits 15 3
      let d2 := readBitsAt bits 18 3
      let mlen := readBitsAt bits 21 15
      let s1 := readBitsAt bits 36 15
      let s2 := readBitsAt bits 51 15
      { board with
        cube := (2 ^ cubeExp : ℕ),
        cubeOwner :=
          if cubeOwnerBits = 0 then some .player1
          else if cubeOwnerBits = 1 then some .player2
          else none,
        turn := if rollerBit = 1 then .player2 else .player1,
        dice := if d1 ≠ 0 ∨ d2 ≠ 0 then some ((d1 : ℤ), (d2 : ℤ)) else none,
        matchLength := if mlen ≠ 0 then some (mlen : ℤ) else none,
        score1 := (s1 : ℤ), score2 := (s2 : ℤ) }

/-- `fromGnuId`: split on `:`, decode the position id into a fresh board
(turn assumed `player1` during point assignment), then decode the match
id (which may then set turn to `player2`). -/
def fromGnuId (gnuId : String) : Except String BackgammonBoard :=
  let cs := gnuId.toList
  if ¬ cs.contains ':' then .error "fromGnuId expects positionId:matchId"
  else
    let segs := splitBy (· == ':') cs
    let posId := segs.getD 0 []
    let matchId := segs.getD 1 []
    (decodePositionIdInto emptyBoard posId).map fun board =>
      if matchId.length = 12 then decodeMatchIdInto board matchId else board

instance {ε α : Type} [DecidableEq ε] [DecidableEq α] :
    DecidableEq (Except ε α) := fun a b =>
  match a, b with
  | .ok x, .ok y =>
    if h : x = y then .isTrue (by rw [h]) else .isFalse (by simp [h])
  | .error x, .error y =>
    if h : x = y then .isTrue (by rw [h]) else .isFalse (by simp [h])
  | .ok _, .error _ => .isFalse (by simp)
  | .error _, .ok _ => .isFalse (by simp)

/-- The concrete board of the failing input: player1 has all 15 checkers
on their point 1, player2 all 15 on their point 2, player2 to move,
everything else at the defaults. -/
def cexBoard : BackgammonBoard :=
  { points1 := (List.replicate 26 0).set 1 15,
    points2 := (List.replicate 26 0).set 2 15,
    turn := .player2, cube := 1, cubeOwner := none, score1 := 0, score2 := 0,
    matchLength := none, dice := none }

/-- The board with the two players' point arrays exchanged. -/
def swapPoints (b : BackgammonBoard) : BackgammonBoard :=
  { b with points1 := b.points2, points2 := b.points1 }

/-- Claim C1: the round-trip `fromGnuId(toGnuId(b)) = b` fails when the
side to move is player2.  `toPositionId` writes the side to move first,
but `#decodePositionIdInto` always assigns the first decoded side to
`player1` and the roller bit of the match ID is only read afterwards, so
the decoded board comes back with the two point arrays exchanged
(turn, cube, dice, match length and scores do round-trip).  On the
symmetric starting position with player1 to move the round-trip holds. -/
theorem C1_roundtrip_code_bug :
    fromGnuId (String.mk (toGnuId cexBoard)) = .ok (swapPoints cexBoard) ∧
    swapPoints cexBoard ≠ cexBoard ∧
    (swapPoints cexBoard).turn = cexBoard.turn ∧
    (swapPoints cexBoard).points1 = cexBoard.points2 ∧
    fromGnuId (String.mk (toGnuId (BackgammonBoard.starting .player1))) =
      .ok (BackgammonBoard.starting .player1) := by
  refine ⟨by decide, by decide, rfl, rfl, by decide⟩

/-!
Crawl-and-analyze pipeline (`addQuizzesAndSave`): filter the match URLs
through the persisted analyzed-matches set, parse and analyze each match,
deduplicate emitted records on their content-addressed id, persist
incrementally, and mark each completed match as analyzed.  The retriever,
parser and engine are the (deterministic) environment.
-/

/-- `extractMatchIdFromUrl`: leftmost match of
`\/bg\/export\/([^\/?#]+)`, anchored attempt at one position. -/
def extractExportAt (cs : List Char) : Option (List Char) :=
  (stripLit cs "/bg/export/".toList).bind fun r =>
    let idcs := r.takeWhile (fun c => !(c == '/' || c == '?' || c == '#'))
    if idcs.isEmpty then none else some idcs

/-- `extractMatchIdFromUrl`: scan for the leftmost export-path match. -/
def extractMatchIdFromUrl : List Char → Option (List Char)
  | [] => none
  | c :: t =>
    match extractExportAt (c :: t) with
    | some i => some i
    | none => extractMatchIdFromUrl t

/-- The world `addQuizzesAndSave` runs against, held constant between
runs as the claim requires: the listed transcript URLs, whether each
transcript parses, and the quiz records that per-ply analysis of a
match's transcript emits at a given threshold (retriever, parser and
engine responses composed). -/
structure CrawlEnv where
  urls : List (List Char)
  parseOk : List Char → Bool
  emit : List Char → ℚ → List QuizRec

/-- The per-user persisted documents: the quizzes payload and the
analyzed-matches set (a JS `Set` of match ids). -/
structure UserStore where
  quizzes : QuizzesPayload
  analyzed : List (List Char)
  deriving DecidableEq

/-- `loadQuizzes`: normalize the stored document (ensure every
position's quiz fields and id, default `threshold` and
`engineAvailable`). -/
def loadQuizzes (computeId : QuizRec → String) (payload : QuizzesPayload) :
    QuizzesPayload :=
  { engineAvailable := some (payload.engineAvailable.getD true),
    threshold := some (payload.threshold.getD DEFAULT_MISTAKE_THRESHOLD),
    positions := payload.positions.map (ensureQuizFields computeId) }

/-- The in-flight state of one `addQuizzesAndSave` run: the in-memory
positions array, the persisted quizzes document, the analyzed-matches
set, and the `added` counter. -/
structure RunState where
  inMem : List QuizRec
  stored : QuizzesPayload
  analyzed : List (List Char)
  added : ℕ
  deriving DecidableEq

/-- The `onPosition` callback: ensure the record's fields, skip it when
its id is falsy or already seen, otherwise append it, count it and save
the quizzes document (fine-grained checkpointing). -/
def onPositionStep (computeId : QuizRec → String) (ea : Option Bool)
    (th : Option ℚ) (st : RunState) (rec : QuizRec) : RunState :=
  let pos := ensureQuizFields computeId rec
  if pos.id = "" then st
  else if (st.inMem.map (·.id)).contains pos.id then st
  else
    let inMem := st.inMem ++ [pos]
    { st with
      inMem := inMem,
      stored := saveQuizzes computeId st.stored ⟨ea, th, inMem⟩,
      added := st.added + 1 }

/-- One URL of the crawl loop: on a parse failure only the progress
counters move; otherwise analyze the match (every emitted record through
`onPositionStep`), then add the match id to analyzed-matches and persist
the set. -/
def processUrl (env : CrawlEnv) (computeId : QuizRec → String)
    (ea : Option Bool) (th : Option ℚ) (st : RunState) (url : List Char) :
    RunState :=
  if env.parseOk url then
    let st' := (env.emit url (th.getD DEFAULT_MISTAKE_THRESHOLD)).foldl
      (onPositionStep computeId ea th) st
    match extractMatchIdFromUrl url with
    | some i =>
      { st' with
        analyzed := if st'.analyzed.contains i then st'.analyzed
          else st'.analyzed ++ [i] }
    | none => st'
  else st

/-- The URL filter of step 1: keep a URL only when its match id is
extractable and not yet in the analyzed-matches set. -/
def fullUrlsOf (env : CrawlEnv) (store : UserStore) : List (List Char) :=
  env.urls.filter (fun url =>
    match extractMatchIdFromUrl url with
    | some i => !store.analyzed.contains i
    | none => false)

/-- The crawl loop's end state for one run. -/
def runStateOf (env : CrawlEnv) (computeId : QuizRec → String)
    (store : UserStore) : RunState :=
  let quizzes := loadQuizzes computeId store.quizzes
  (fullUrlsOf env store).foldl
    (processUrl env computeId quizzes.engineAvailable quizzes.threshold)
    ⟨quizzes.positions, store.quizzes, store.analyzed, 0⟩

/-- `addQuizzesAndSave`: load the documents, drop URLs whose match id is
missing or already analyzed, crawl the rest, save the merged quizzes and
return the new store with the `added` count. -/
def addQuizzesAndSave (env : CrawlEnv) (computeId : QuizRec → String)
    (store : UserStore) : UserStore × ℕ :=
  let quizzes := loadQuizzes computeId store.quizzes
  let st := runStateOf env computeId store
  let finalStored := saveQuizzes computeId st.stored
    ⟨quizzes.engineAvailable, quizzes.threshold, st.inMem⟩
  (⟨finalStored, st.analyzed⟩, st.added)

lemma onPositionStep_analyzed (computeId : QuizRec → String) (ea : Option Bool)
    (th : Option ℚ) (st : RunState) (rec : QuizRec) :
    (onPositionStep computeId ea th st rec).analyzed = st.analyzed := by
  simp only [onPositionStep]
  split_ifs <;> rfl

lemma foldOnPos_analyzed (computeId : QuizRec → String) (ea : Option Bool)
    (th : Option ℚ) (recs : List QuizRec) (st : RunState) :
    (recs.foldl (onPositionStep computeId ea th) st).analyzed = st.analyzed := by
  induction recs generalizing st with
  | nil => rfl
  | cons r rs ih =>
    rw [List.foldl_cons, ih, onPositionStep_analyzed]

lemma processUrl_analyzed_mono (env : CrawlEnv) (computeId : QuizRec → String)
    (ea : Option Bool) (th : Option ℚ) (st : RunState) (url : List Char)
    (i : List Char) (h : i ∈ st.analyzed) :
    i ∈ (processUrl env computeId ea th st url).analyzed := by
  simp only [processUrl]
  split_ifs with hp
  · cases hext : extractMatchIdFromUrl url with
    | none => simpa [hext, foldOnPos_analyzed] using h
    | some j =>
      simp only [hext, foldOnPos_analyzed]
      split_ifs with hc
      · exact h
      · exact List.mem_append.mpr (Or.inl h)
  · exact h

lemma foldUrls_analyzed_mono (env : CrawlEnv) (computeId : QuizRec → String)
    (ea : Option Bool) (th : Option ℚ) (urls : List (List Char)) (st : RunState)
    (i : List Char) (h : i ∈ st.analyzed) :
    i ∈ (urls.foldl (processUrl env computeId ea th) st).analyzed := by
  induction urls generalizing st with
  | nil => exact h
  | cons u us ih =>
    rw [List.foldl_cons]
    exact ih _ (processUrl_analyzed_mono env computeId ea th st u i h)

lemma processUrl_covers (env : CrawlEnv) (computeId : QuizRec → String)
    (ea : Option Bool) (th : Option ℚ) (st : RunState) (url : List Char)
    (i : List Char) (hp : env.parseOk url = true)
    (hex : extractMatchIdFromUrl url = some i) :
    i ∈ (processUrl env computeId ea th st url).analyzed := by
  simp only [processUrl, hp, if_pos, hex]
  split_ifs with hc
  · exact List.mem_of_elem_eq_true hc
  · exact List.mem_append.mpr (Or.inr (List.mem_singleton.mpr rfl))

lemma foldUrls_covers (env : CrawlEnv) (computeId : QuizRec → String)
    (ea : Option Bool) (th : Option ℚ) (urls : List (List Char)) (st : RunState)
    (url : List Char) (i : List Char) (hu : url ∈ urls)
    (hp : env.parseOk url = true) (hex : extractMatchIdFromUrl url = some i) :
    i ∈ (urls.foldl (processUrl env computeId ea th) st).analyzed := by
  induction urls generalizing st with
  | nil => cases hu
  | cons u us ih =>
    rw [List.foldl_cons]
    rcases List.mem_cons.mp hu with rfl | hmem
    · exact foldUrls_analyzed_mono env computeId ea th us _ i
        (processUrl_covers env computeId ea th st url i hp hex)
    · exact ih _ hmem

lemma processUrl_parse_false (env : CrawlEnv) (computeId : QuizRec → String)
    (ea : Option Bool) (th : Option ℚ) (st : RunState) (url : List Char)
    (hp : env.parseOk url = false) :
    processUrl env computeId ea th st url = st := by
  simp [processUrl, hp]

lemma foldUrls_parse_false (env : CrawlEnv) (computeId : QuizRec → String)
    (ea : Option Bool) (th : Option ℚ) (urls : List (List Char)) (st : RunState)
    (h : ∀ u ∈ urls, env.parseOk u = false) :
    urls.foldl (processUrl env computeId ea th) st = st := by
  induction urls generalizing st with
  | nil => rfl
  | cons u us ih =>
    rw [List.foldl_cons,
      processUrl_parse_false env computeId ea th st u (h u (List.mem_cons_self u us))]
    exact ih _ (fun q hq => h q (List.mem_cons_of_mem u hq))

/-- The id column of an id-keyed position list. -/
def idsOf (m : List QuizRec) : List String := m.map (·.id)

/-- Well-formedness of the merge map: all ids present and distinct. -/
def goodIds (m : List QuizRec) : Prop :=
  (idsOf m).Nodup ∧ ∀ x ∈ m, x.id ≠ ""

lemma ids_upsert (m : List QuizRec) (p : QuizRec) :
    idsOf (upsert m p) = idsOf m ∨ idsOf (upsert m p) = idsOf m ++ [p.id] := by
  induction m with
  | nil => right; rfl
  | cons q rest ih =>
    by_cases h : q.id = p.id
    · left; simp [upsert, h, idsOf]
    · rcases ih with h1 | h1
      · left; simp [upsert, h, idsOf] at h1 ⊢; exact h1
      · right; simp [upsert, h, idsOf] at h1 ⊢; exact h1

lemma ids_mergeInto (m : List QuizRec) (p : QuizRec) :
    idsOf (mergeInto m p) = idsOf m ∨
      idsOf (mergeInto m p) = idsOf m ++ [p.id] := by
  induction m with
  | nil => right; rfl
  | cons q rest ih =>
    by_cases h : q.id = p.id
    · left; simp [mergeInto, h, idsOf, mergedRec_id]
    · rcases ih with h1 | h1
      · left; simp [mergeInto, h, idsOf] at h1 ⊢; exact h1
      · right; simp [mergeInto, h, idsOf] at h1 ⊢; exact h1

lemma ids_mergeInto_hit (m : List QuizRec) (p : QuizRec)
    (h : p.id ∈ idsOf m) : idsOf (mergeInto m p) = idsOf m := by
  induction m with
  | nil => cases h
  | cons q rest ih =>
    by_cases hq : q.id = p.id
    · simp [mergeInto, hq, idsOf, mergedRec_id]
    · have hrest : p.id ∈ idsOf rest := by
        rcases List.mem_cons.mp h with h1 | h1
        · exact absurd h1.symm hq
        · exact h1
      have hih : idsOf (mergeInto rest p) = idsOf rest := ih hrest
      simp only [mergeInto, if_neg hq, idsOf, List.map_cons]
      simp only [idsOf] at hih
      rw [hih]

lemma mem_upsert (m : List QuizRec) (p x : QuizRec) (hx : x ∈ upsert m p) :
    x ∈ m ∨ x = p := by
  induction m with
  | nil => simpa [upsert] using hx
  | cons q rest ih =>
    by_cases h : q.id = p.id
    · simp only [upsert, if_pos h, List.mem_cons] at hx
      rcases hx with rfl | hx
      · right; rfl
      · left; exact List.mem_cons_of_mem q hx
    · simp only [upsert, if_neg h, List.mem_cons] at hx
      rcases hx with rfl | hx
      · left; exact List.mem_cons_self x rest
      · rcases ih hx with h1 | h1
        · left; exact List.mem_cons_of_mem q h1
        · right; exact h1

lemma mergedRec_id_eq (q p : QuizRec) : (mergedRec q p).id = q.id := rfl

lemma mem_mergeInto (m : List QuizRec) (p x : QuizRec) (hx : x ∈ mergeInto m p) :
    (∃ q ∈ m, x = mergedRec q p) ∨ x ∈ m ∨ x = p := by
  induction m with
  | nil => simpa [mergeInto] using hx
  | cons q rest ih =>
    by_cases h : q.id = p.id
    · simp only [mergeInto, if_pos h, List.mem_cons] at hx
      rcases hx with rfl | hx
      · exact Or.inl ⟨q, List.mem_cons_self q rest, rfl⟩
      · exact Or.inr (Or.inl (List.mem_cons_of_mem q hx))
    · simp only [mergeInto, if_neg h, List.mem_cons] at hx
      rcases hx with rfl | hx
      · exact Or.inr (Or.inl (List.mem_cons_self x rest))
      · rcases ih hx with ⟨r, hr, h1⟩ | h1 | h1
        · exact Or.inl ⟨r, List.mem_cons_of_mem q hr, h1⟩
        · exact Or.inr (Or.inl (List.mem_cons_of_mem q h1))
        · exact Or.inr (Or.inr h1)

lemma goodIds_upsert {m : List QuizRec} {p : QuizRec} (hm : goodIds m)
    (hp : p.id ≠ "") : goodIds (upsert m p) := by
  obtain ⟨hnd, hne⟩ := hm
  constructor
  · induction m with
    | nil => simp [upsert, idsOf]
    | cons q rest ih =>
      by_cases h : q.id = p.id
      · simp only [upsert, if_pos h, idsOf, List.map_cons, List.nodup_cons] at hnd ⊢
        exact ⟨h ▸ hnd.1, hnd.2⟩
      · simp only [upsert, if_neg h, idsOf, List.map_cons, List.nodup_cons] at hnd ⊢
        refine ⟨?_, ih hnd.2 (fun x hx => hne x (List.mem_cons_of_mem q hx))⟩
        intro hmem
        rcases ids_upsert rest p with h1 | h1
        · simp only [idsOf] at h1
          rw [h1] at hmem
          exact hnd.1 hmem
        · simp only [idsOf] at h1
          rw [h1] at hmem
          rcases List.mem_append.mp hmem with h2 | h2
          · exact hnd.1 h2
          · exact h (List.mem_singleton.mp h2)
  · intro x hx
    rcases mem_upsert m p x hx with h1 | rfl
    · exact hne x h1
    · exact hp

lemma goodIds_mergeInto {m : List QuizRec} {p : QuizRec} (hm : goodIds m)
    (hp : p.id ≠ "") : goodIds (mergeInto m p) := by
  obtain ⟨hnd, hne⟩ := hm
  constructor
  · induction m with
    | nil => simp [mergeInto, idsOf]
    | cons q rest ih =>
      by_cases h : q.id = p.id
      · simpa [mergeInto, h, idsOf, mergedRec_id_eq] using hnd
      · simp only [mergeInto, if_neg h, idsOf, List.map_cons, List.nodup_cons] at hnd ⊢
        refine ⟨?_, ih hnd.2 (fun x hx => hne x (List.mem_cons_of_mem q hx))⟩
        intro hmem
        rcases ids_mergeInto rest p with h1 | h1
        · simp only [idsOf] at h1
          rw [h1] at hmem
          exact hnd.1 hmem
        · simp only [idsOf] at h1
          rw [h1] at hmem
          rcases List.mem_append.mp hmem with h2 | h2
          · exact hnd.1 h2
          · exact h (List.mem_singleton.mp h2)
  · intro x hx
    rcases mem_mergeInto m p x hx with ⟨r, hr, rfl⟩ | h1 | rfl
    · rw [mergedRec_id_eq]; exact hne r hr
    · exact hne x h1
    · exact hp

lemma goodIds_exFold (E : List QuizRec) (m : List QuizRec) (hm : goodIds m) :
    goodIds (E.foldl (fun m p => if p.id ≠ "" then upsert m p else m) m) := by
  induction E generalizing m with
  | nil => exact hm
  | cons p E' ih =>
    rw [List.foldl_cons]
    by_cases hp : p.id ≠ ""
    · rw [if_pos hp]; exact ih _ (goodIds_upsert hm hp)
    · rw [if_neg hp]; exact ih _ hm

lemma goodIds_inFold (Q : List QuizRec) (m : List QuizRec) (hm : goodIds m) :
    goodIds (Q.foldl (fun m p => if p.id = "" then m else mergeInto m p) m) := by
  induction Q generalizing m with
  | nil => exact hm
  | cons p Q' ih =>
    rw [List.foldl_cons]
    by_cases hp : p.id = ""
    · rw [if_pos hp]; exact ih _ hm
    · rw [if_neg hp]; exact ih _ (goodIds_mergeInto hm hp)

/-- Every output of `mergeQuizzesPayload` is an id-keyed map: ids are
present and pairwise distinct. -/
lemma merge_goodIds (computeId : QuizRec → String)
    (existing incoming : QuizzesPayload) :
    goodIds (mergeQuizzesPayload computeId existing incoming).positions := by
  rw [merge_positions_eq]
  exact goodIds_inFold _ _ (goodIds_exFold _ [] ⟨List.nodup_nil, by simp⟩)

lemma upsert_absent (m : List QuizRec) (p : QuizRec) (h : p.id ∉ idsOf m) :
    upsert m p = m ++ [p] := by
  induction m with
  | nil => rfl
  | cons q rest ih =>
    have hq : ¬ q.id = p.id := by
      intro he
      exact h (he ▸ List.mem_cons_self q.id (idsOf rest))
    have hrest : p.id ∉ idsOf rest := fun hm =>
      h (List.mem_cons_of_mem q.id hm)
    simp [upsert, hq, ih hrest]

lemma exFold_app (E : List QuizRec) (m : List QuizRec)
    (hdisj : ∀ p ∈ E, p.id ∉ idsOf m) (hne : ∀ p ∈ E, p.id ≠ "")
    (hnd : (idsOf E).Nodup) :
    E.foldl (fun m p => if p.id ≠ "" then upsert m p else m) m = m ++ E := by
  induction E generalizing m with
  | nil => simp
  | cons p E' ih =>
    rw [List.foldl_cons, if_pos (hne p (List.mem_cons_self p E')),
      upsert_absent m p (hdisj p (List.mem_cons_self p E'))]
    have hpd : p.id ∉ idsOf E' := by
      simp only [idsOf, List.map_cons, List.nodup_cons] at hnd
      exact hnd.1
    rw [ih (m ++ [p]) ?_ (fun q hq => hne q (List.mem_cons_of_mem p hq)) ?_]
    · simp
    · intro q hq
      simp only [idsOf, List.map_append, List.map_cons]
      intro hmem
      rcases List.mem_append.mp hmem with h1 | h1
      · exact hdisj q (List.mem_cons_of_mem p hq) h1
      · have : q.id = p.id := by simpa using h1
        exact hpd (this ▸ List.mem_map_of_mem (fun x => x.id) hq)
    · simp only [idsOf, List.map_cons, List.nodup_cons] at hnd
      exact hnd.2

lemma inFold_ids (Q : List QuizRec) (m : List QuizRec)
    (h : ∀ p ∈ Q, p.id = "" ∨ p.id ∈ idsOf m) :
    idsOf (Q.foldl (fun m p => if p.id = "" then m else mergeInto m p) m) =
      idsOf m := by
  induction Q generalizing m with
  | nil => rfl
  | cons p Q' ih =>
    rw [List.foldl_cons]
    rcases h p (List.mem_cons_self p Q') with hp | hp
    · rw [if_pos hp]
      exact ih _ (fun q hq => h q (List.mem_cons_of_mem p hq))
    · by_cases hz : p.id = ""
      · rw [if_pos hz]
        exact ih _ (fun q hq => h q (List.mem_cons_of_mem p hq))
      · rw [if_neg hz]
        have hids := ids_mergeInto_hit m p hp
        rw [ih _ (fun q hq => hids ▸ h q (List.mem_cons_of_mem p hq)), hids]

lemma ensure_id_ne (computeId : QuizRec → String) (p : QuizRec)
    (h : p.id ≠ "") : (ensureQuizFields computeId p).id = p.id := by
  simp [ensureQuizFields, h]

lemma ensure_idem_ne (computeId : QuizRec → String) (p : QuizRec)
    (h : p.id ≠ "") :
    ensureQuizFields computeId (ensureQuizFields computeId p) =
      ensureQuizFields computeId p := by
  simp [ensureQuizFields, h]

/-- Saving a store's own (ensured) positions back into it does not
change the number of stored positions. -/
lemma merge_self_length (computeId : QuizRec → String)
    (stored : QuizzesPayload) (ea : Option Bool) (th : Option ℚ)
    (hg : goodIds stored.positions) :
    (mergeQuizzesPayload computeId stored
      ⟨ea, th, stored.positions.map (ensureQuizFields computeId)⟩).positions.length
      = stored.positions.length := by
  rw [merge_positions_eq]
  have hids : idsOf (stored.positions.map (ensureQuizFields computeId)) =
      idsOf stored.positions := by
    simp only [idsOf, List.map_map]
    exact List.map_congr_left
      (fun p hp => ensure_id_ne computeId p (hg.2 p hp))
  have hIne : ∀ p ∈ stored.positions.map (ensureQuizFields computeId),
      p.id ≠ "" := by
    intro p hp
    obtain ⟨q, hq, rfl⟩ := List.mem_map.mp hp
    rw [ensure_id_ne computeId q (hg.2 q hq)]
    exact hg.2 q hq
  have hII : (stored.positions.map (ensureQuizFields computeId)).map
      (ensureQuizFields computeId) =
      stored.positions.map (ensureQuizFields computeId) := by
    conv_rhs => rw [← List.map_id (stored.positions.map (ensureQuizFields computeId))]
    refine List.map_congr_left ?_
    intro p hp
    obtain ⟨q, hq, rfl⟩ := List.mem_map.mp hp
    exact ensure_idem_ne computeId q (hg.2 q hq)
  have hseed : (stored.positions.map (ensureQuizFields computeId)).foldl
      (fun m p => if p.id ≠ "" then upsert m p else m) [] =
      stored.positions.map (ensureQuizFields computeId) := by
    have := exFold_app (stored.positions.map (ensureQuizFields computeId)) []
      (by intro p hp; simp [idsOf]) hIne (hids ▸ hg.1)
    simpa using this
  rw [hII, hseed]
  have hidsfold := inFold_ids (stored.positions.map (ensureQuizFields computeId))
    (stored.positions.map (ensureQuizFields computeId))
    (fun p hp => Or.inr (List.mem_map_of_mem (fun x => x.id) hp))
  have hlen : ∀ l : List QuizRec, l.length = (idsOf l).length := by
    intro l; simp [idsOf]
  rw [hlen, hidsfold, ← hlen, List.length_map]

/-- Claim C9: with the retriever, the parser and the engine held
constant between runs, running `addQuizzesAndSave` a second time
immediately after a completed first run adds zero new quiz records and
leaves the number of stored positions unchanged: completed match ids are
filtered out via the persisted analyzed-matches set, and per-record ids
are deduplicated. -/
theorem C9_second_run_idempotent (env : CrawlEnv) (computeId : QuizRec → String)
    (store₀ : UserStore) :
    (addQuizzesAndSave env computeId
      (addQuizzesAndSave env computeId store₀).1).2 = 0 ∧
    (addQuizzesAndSave env computeId
      (addQuizzesAndSave env computeId store₀).1).1.quizzes.positions.length =
      (addQuizzesAndSave env computeId store₀).1.quizzes.positions.length := by
  set store₁ := (addQuizzesAndSave env computeId store₀).1 with hstore₁
  have hg1 : goodIds store₁.quizzes.positions := by
    have h : store₁.quizzes = mergeQuizzesPayload computeId
        (runStateOf env computeId store₀).stored
        ⟨(loadQuizzes computeId store₀.quizzes).engineAvailable,
          (loadQuizzes computeId store₀.quizzes).threshold,
          (runStateOf env computeId store₀).inMem⟩ := rfl
    rw [h]
    exact merge_goodIds _ _ _
  have hana : store₁.analyzed = (runStateOf env computeId store₀).analyzed := rfl
  have hmono : ∀ j ∈ store₀.analyzed, j ∈ store₁.analyzed := by
    intro j hj
    rw [hana]
    exact foldUrls_analyzed_mono env computeId _ _ _ _ j hj
  have hpf : ∀ u ∈ fullUrlsOf env store₁, env.parseOk u = false := by
    intro u hu
    rcases Bool.eq_false_or_eq_true (env.parseOk u) with hpar | hpar
    swap
    · exact hpar
    exfalso
    obtain ⟨hu_urls, hpred⟩ := List.mem_filter.mp hu
    cases hext : extractMatchIdFromUrl u with
    | none => rw [hext] at hpred; simp at hpred
    | some i =>
      rw [hext] at hpred
      have hnotin1 : i ∉ store₁.analyzed := by
        intro hmem
        have hpred' : (!store₁.analyzed.contains i) = true := hpred
        have hc : store₁.analyzed.contains i = true :=
          List.elem_eq_true_of_mem hmem
        rw [hc] at hpred'
        simp at hpred'
      have hnotin0 : i ∉ store₀.analyzed := fun hmem => hnotin1 (hmono i hmem)
      have hu1 : u ∈ fullUrlsOf env store₀ := by
        refine List.mem_filter.mpr ⟨hu_urls, ?_⟩
        rw [hext]
        show (!store₀.analyzed.contains i) = true
        have hc : store₀.analyzed.contains i = false := by
          cases hc2 : store₀.analyzed.contains i
          · rfl
          · exact absurd (List.mem_of_elem_eq_true hc2) hnotin0
        rw [hc]
        rfl
      refine hnotin1 ?_
      rw [hana]
      exact foldUrls_covers env computeId _ _ _ _ u i hu1 hpar hext
  have hrun2 : runStateOf env computeId store₁ =
      ⟨(loadQuizzes computeId store₁.quizzes).positions, store₁.quizzes,
        store₁.analyzed, 0⟩ := by
    unfold runStateOf
    exact foldUrls_parse_false env computeId _ _ _ _ hpf
  constructor
  · show (runStateOf env computeId store₁).added = 0
    rw [hrun2]
  · have h2q : (addQuizzesAndSave env computeId store₁).1.quizzes =
        mergeQuizzesPayload computeId store₁.quizzes
          ⟨(loadQuizzes computeId store₁.quizzes).engineAvailable,
            (loadQuizzes computeId store₁.quizzes).threshold,
            store₁.quizzes.positions.map (ensureQuizFields computeId)⟩ := by
      show saveQuizzes computeId (runStateOf env computeId store₁).stored
          ⟨(loadQuizzes computeId store₁.quizzes).engineAvailable,
            (loadQuizzes computeId store₁.quizzes).threshold,
            (runStateOf env computeId store₁).inMem⟩ = _
      rw [hrun2]
      rfl
    rw [h2q]
    exact merge_self_length computeId store₁.quizzes _ _ hg1

end BGHits
